import Mathlib

/-!
Verification development for the flow-graph core of the HSPF UCI file
generator (`version2.py`): shape/edge graph construction, the memoized
branch-depth computation, the narrative summary traversal, the corrected
network-block composer and the operation-sequence deriver.

Python dictionaries are modelled as association lists that preserve
insertion order; Python sets are modelled as lists with membership-guarded
insertion; the unbounded Python recursion is modelled with an explicit
fuel parameter (`none` = the recursion did not complete within the given
bound); numeric drainage areas are modelled as rationals.
-/

/-- Python `str.split()` whitespace test (the characters str.split treats
as separators that occur in this program's data). -/
def pyIsSpace (c : Char) : Bool :=
  c = ' ' || c = '\t' || c = '\n' || c = '\r'

/-- Split a character list on runs of whitespace, discarding empty pieces,
as Python `str.split()` does. -/
def splitWsChars : List Char → List Char → List (List Char)
  | [], acc => if acc.isEmpty then [] else [acc.reverse]
  | c :: rest, acc =>
    if pyIsSpace c then
      if acc.isEmpty then splitWsChars rest []
      else acc.reverse :: splitWsChars rest []
    else splitWsChars rest (c :: acc)

/-- Python `line.split()`. -/
def pySplit (s : String) : List String :=
  (splitWsChars s.data []).map String.mk

/-- Python `s.strip()` over the characters occurring here. -/
def pyStrip (s : String) : String :=
  String.mk (((s.data.dropWhile pyIsSpace).reverse.dropWhile pyIsSpace).reverse)

/-- Whether the first character list occurs at the head of the second. -/
def leadsList : List Char → List Char → Bool
  | [], _ => true
  | _ :: _, [] => false
  | a :: as, b :: bs => a = b && leadsList as bs

/-- Whether the first character list occurs contiguously in the second. -/
def occursIn : List Char → List Char → Bool
  | needle, [] => needle.isEmpty
  | needle, b :: bs => leadsList needle (b :: bs) || occursIn needle bs

/-- Python `needle in haystack` substring test. -/
def pyContains (haystack needle : String) : Bool :=
  occursIn needle.data haystack.data

/-- Python `f"{s:<w}"` left justification. -/
def ljust (s : String) (w : Nat) : String :=
  s ++ String.mk (List.replicate (w - s.length) ' ')

/-- Round half to even on rationals (Python `round` tie behaviour). -/
def halfEvenRound (x : ℚ) : ℤ :=
  let f := Int.floor x
  let r := x - (f : ℚ)
  if r < 1/2 then f
  else if 1/2 < r then f + 1
  else if f % 2 = 0 then f else f + 1

/-- Python `round(x, 7)` on the rational model of the drainage area. -/
def roundQ7 (x : ℚ) : ℚ :=
  (halfEvenRound (x * 10000000) : ℚ) / 10000000

/-- Decimal digits of `n` padded on the left with zeros to 7 places. -/
def pad7 (n : Nat) : String :=
  let s := toString n
  String.mk (List.replicate (7 - s.length) '0') ++ s

/-- Python `f"{x:<9.7f}"` for a non-negative rational that is an integer
multiple of `10 ^ (-7)` (which the values formatted here are, having been
rounded to 7 places first). -/
def formatFixed7 (q : ℚ) : String :=
  let n := (Int.floor (q * 10000000)).toNat
  ljust (toString (n / 10000000) ++ "." ++ pad7 (n % 10000000)) 9

/-- The value `halfEvenRound (num / den)` computed by integer arithmetic on a
fraction with positive denominator (Lean's integer `/` is floor division
for a positive divisor, and `2 * (num - f * den) ≶ den` compares the
remainder against one half); proven equal to the rational-level rounding
in `halfEvenOfFrac_eq`. -/
def halfEvenOfFrac (num : ℤ) (den : ℕ) : ℤ :=
  let f := num / (den : ℤ)
  let r2 := 2 * (num - f * (den : ℤ))
  if r2 < (den : ℤ) then f
  else if (den : ℤ) < r2 then f + 1
  else if f % 2 = 0 then f else f + 1

/-- The integer `n` with `n / 10^7 = round(a / 100000, 7)` — the digits
Python prints for the scaled drainage area (`a / 100000 * 10^7 = a * 100`);
proven equal to the rational-level computation in `areaRounded7_eq`. -/
def areaRounded7 (a : ℚ) : ℤ := halfEvenOfFrac (a.num * 100) a.den

/-- The formatted drainage-area field of a statement line:
`f"{round(a / 100000, 7):<9.7f}"`; agrees with
`formatFixed7 (scaledArea a)` by `areaField_eq`. -/
def areaField (a : ℚ) : String :=
  let n := (areaRounded7 a).toNat
  ljust (toString (n / 10000000) ++ "." ++ pad7 (n % 10000000)) 9

/-- Python string `<=` (lexicographic on code points) on the head of two
character lists. -/
def charListLe : List Char → List Char → Bool
  | [], _ => true
  | _ :: _, [] => false
  | a :: as, b :: bs =>
    if a.toNat < b.toNat then true
    else if b.toNat < a.toNat then false
    else charListLe as bs

/-- Python string comparison `a <= b` (lexicographic on code points). -/
def strLe (a b : String) : Bool := charListLe a.data b.data

/-- One entry of a vertex's `outgoing` list: `{"target": ..., "flow_type": ...}`. -/
structure FlowOut where
  target : String
  flow_type : String
deriving DecidableEq, Repr

/-- One entry of a vertex's `incoming` list: `{"source": ..., "flow_type": ...}`. -/
structure FlowIn where
  source : String
  flow_type : String
deriving DecidableEq, Repr

/-- One vertex record of `shapes_by_id`. -/
structure Shape where
  label : String
  hydro_type : String
  incoming : List FlowIn
  outgoing : List FlowOut
deriving DecidableEq, Repr

/-- Embeds `shapes_by_id`: a Python dict modelled as an insertion-ordered
association list from the shape id to its record. -/
abbrev HGraph := List (String × Shape)

/-- Dict lookup `shapes_by_id[sid]` (first matching key). -/
def lookupShape : HGraph → String → Option Shape
  | [], _ => none
  | p :: rest, sid => if p.1 = sid then some p.2 else lookupShape rest sid

theorem lookupShape_mem {g : HGraph} {sid : String} {sh : Shape}
    (h : lookupShape g sid = some sh) : (sid, sh) ∈ g := by
  induction g with
  | nil => simp [lookupShape] at h
  | cons p rest ih =>
    obtain ⟨k, v⟩ := p
    by_cases hp : k = sid
    · subst hp
      simp [lookupShape] at h
      subst h
      exact List.mem_cons_self _ _
    · simp [lookupShape, hp] at h
      exact List.mem_cons_of_mem _ (ih h)

/-- One raw connector record, with the attributes `cell.get(...)` reads;
`none` models an absent XML attribute. -/
structure RawEdgeCell where
  source : Option String
  target : Option String
  style : Option String
deriving DecidableEq, Repr

/-- The style string computed by `parse_edges`:
`cell.get("style", "").lower() if cell.get("style") else ""`. -/
def edgeStyleOf (style : Option String) : String :=
  match style with
  | none => ""
  | some s => if s = "" then "" else s.toLower

/-- The candidate edge `parse_edges` emits for one connector cell, if any. -/
def parseEdgeCell (cell : RawEdgeCell) : Option (String × String × String) :=
  let src := pyStrip (cell.source.getD "")
  let tgt := pyStrip (cell.target.getD "")
  if src ≠ "" ∧ tgt ≠ "" then some (src, tgt, edgeStyleOf cell.style) else none

/-- Embeds `parse_edges`: the loop appending accepted `(source, target, style)`
triples in discovery order. -/
def parse_edges (cells : List RawEdgeCell) : List (String × String × String) :=
  cells.foldl
    (fun acc cell =>
      match parseEdgeCell cell with
      | some e => acc ++ [e]
      | none => acc)
    []

/-- Update the record stored under `sid` (Python dict entry mutation). -/
def updateShape (g : HGraph) (sid : String) (f : Shape → Shape) : HGraph :=
  g.map (fun p => if p.1 = sid then (p.1, f p.2) else p)

/-- The flow type `build_graph` assigns to an edge style. -/
def flowTypeOf (style : String) : String :=
  if pyContains style "dashed=1" then "Groundwater" else "Surface"

/-- Embeds `build_graph` body for one accepted edge. -/
def addEdge (g : HGraph) (e : String × String × String) : HGraph :=
  match e with
  | (src, tgt, style) =>
    if (lookupShape g src).isSome ∧ (lookupShape g tgt).isSome then
      let ft := flowTypeOf style
      let g := updateShape g src (fun sh => { sh with outgoing := sh.outgoing ++ [⟨tgt, ft⟩] })
      updateShape g tgt (fun sh => { sh with incoming := sh.incoming ++ [⟨src, ft⟩] })
    else g

/-- Embeds `build_graph`. -/
def build_graph (g : HGraph) (edges : List (String × String × String)) : HGraph :=
  edges.foldl addEdge g

/-- The memo dict of `compute_branch_length`. -/
abbrev Memo := List (String × Nat)

/-- Memo dict lookup. -/
def memoFind : Memo → String → Option Nat
  | [], _ => none
  | p :: rest, sid => if p.1 = sid then some p.2 else memoFind rest sid

theorem memoFind_mem {m : Memo} {sid : String} {d : Nat}
    (h : memoFind m sid = some d) : (sid, d) ∈ m := by
  induction m with
  | nil => simp [memoFind] at h
  | cons p rest ih =>
    obtain ⟨k, v⟩ := p
    by_cases hp : k = sid
    · subst hp
      simp [memoFind] at h
      subst h
      exact List.mem_cons_self _ _
    · simp [memoFind, hp] at h
      exact List.mem_cons_of_mem _ (ih h)

/-- The `for out_dict in outgoings` loop of `compute_branch_length`,
parameterized by the recursive call `f`; threads the running maximum and
the memo dict. -/
def cblFold (f : String → Memo → Option (Nat × Memo)) :
    List FlowOut → Nat → Memo → Option (Nat × Memo)
  | [], maxd, memo => some (maxd, memo)
  | e :: rest, maxd, memo =>
    match f e.target memo with
    | none => none
    | some (d, memo') => cblFold f rest (if maxd < d then d else maxd) memo'

/-- Embeds `compute_branch_length(shapes_by_id, start_id, memo)` with an explicit
recursion-depth fuel; `none` means the recursion did not complete within
the bound (the Python original has no cycle guard and would recurse without
bound), or the start id is missing from the dict (a Python `KeyError`). -/
def computeBranchLength (g : HGraph) : Nat → String → Memo → Option (Nat × Memo)
  | 0, _, _ => none
  | fuel + 1, startId, memo =>
    match memoFind memo startId with
    | some d => some (d, memo)
    | none =>
      match lookupShape g startId with
      | none => none
      | some sh =>
        match sh.outgoing with
        | [] => some (1, (startId, 1) :: memo)
        | outs =>
          match cblFold (computeBranchLength g fuel) outs 0 memo with
          | none => none
          | some (maxd, memo') => some (1 + maxd, (startId, 1 + maxd) :: memo')

/-- A stable insertion into a list ordered by the total preorder `le`. -/
def insertBy (le : α → α → Bool) (x : α) : List α → List α
  | [] => [x]
  | y :: ys => if le x y then x :: y :: ys else y :: insertBy le x ys

/-- Stable insertion sort; models Python's stable `sorted` under a total
preorder comparator. -/
def sortBy (le : α → α → Bool) : List α → List α
  | [] => []
  | x :: xs => insertBy le x (sortBy le xs)

/-- The key of one narrative sentence: `(source_id, target_id, flow_type)`. -/
abbrev LineKey := String × String × String

/-- One entry of the `lines` list of `narrative_summary`, tagged with its
provenance; `textOf` recovers the exact string the Python code appends. -/
inductive NarLine where
  | discharge (key : LineKey) (text : String)
  | noDischarge (sid : String) (text : String)
  | orphanHeader (text : String)
  | orphanEntry (sid : String) (text : String)
  | blank
deriving DecidableEq, Repr

/-- The string a `lines` entry holds in the Python code. -/
def NarLine.textOf : NarLine → String
  | discharge _ t => t
  | noDischarge _ t => t
  | orphanHeader t => t
  | orphanEntry _ t => t
  | blank => ""

/-- The mutable state of `narrative_summary`: the `visited_lines` set, the
`visited_targets` set and the `lines` output list. -/
structure NarState where
  visitedLines : List LineKey
  visitedTargets : List String
  lines : List NarLine
deriving DecidableEq, Repr

/-- The initial narrative state. -/
def initNarState : NarState := ⟨[], [], []⟩

/-- Embeds `"(Surface)" if flow_type == "Surface" else "(Groundwater)"`. -/
def flowText (flow_type : String) : String :=
  if flow_type = "Surface" then "(Surface)" else "(Groundwater)"

/-- Python `data["label"] or fallback_id` (an empty label is falsy). -/
def labelOrId (sh : Shape) (sid : String) : String :=
  if sh.label = "" then sid else sh.label

/-- The sentence `add_line` appends for an unemitted key. -/
def dischargeText (src : Shape) (sourceId : String) (tgt : Shape)
    (targetId : String) (flow_type : String) : String :=
  src.hydro_type ++ " " ++ labelOrId src sourceId ++ " discharges " ++
    flowText flow_type ++ " to " ++ tgt.hydro_type ++ " " ++
    labelOrId tgt targetId ++ "."

/-- Embeds `add_line(source_id, target_id, flow_type)`: no-op on an emitted key,
else mark the key emitted and append the formatted sentence. `none` models
the Python `KeyError` on a missing shape id. -/
def addLine (g : HGraph) (sourceId targetId flow_type : String)
    (st : NarState) : Option NarState :=
  if (sourceId, targetId, flow_type) ∈ st.visitedLines then some st
  else
    match lookupShape g sourceId, lookupShape g targetId with
    | some src, some tgt =>
      some { st with
        visitedLines := (sourceId, targetId, flow_type) :: st.visitedLines,
        lines := st.lines ++ [.discharge (sourceId, targetId, flow_type)
          (dischargeText src sourceId tgt targetId flow_type)] }
    | _, _ => none

/-- The string appended for a vertex with no outgoing edges (note: the
source uses the raw label here, with no id fallback). -/
def noDischargeText (sh : Shape) : String :=
  sh.hydro_type ++ " " ++ sh.label ++ " does not discharge to any recognized element."

/-- The empty-`outgoing` branch of `process_target`. -/
def pushNoDis (sh : Shape) (sid : String) (st : NarState) : NarState :=
  if sh.hydro_type ≠ "Comment/Note" then
    { st with lines := st.lines ++ [.noDischarge sid (noDischargeText sh)] }
  else st

/-- Embeds `sorted(outgoings, key=lambda od: memo_lengths[od["target"]], reverse=True)`;
`none` models the `KeyError` on a target missing from the memo dict. -/
def sortOutgoing (memo : Memo) (outs : List FlowOut) : Option (List FlowOut) :=
  if outs.all (fun e => (memoFind memo e.target).isSome) then
    some (sortBy (fun a b => (memoFind memo b.target).getD 0 ≤ (memoFind memo a.target).getD 0) outs)
  else none

/-- The `for inc_dict in shapes_by_id[tid]["incoming"]` loop of
`process_target`, with the recursive call passed as `pt`. -/
def processIncoming (g : HGraph) (pt : String → NarState → Option NarState)
    (tid : String) : List FlowIn → NarState → Option NarState
  | [], st => some st
  | e :: rest, st =>
    if (e.source, tid, e.flow_type) ∈ st.visitedLines then
      processIncoming g pt tid rest st
    else
      match pt e.source st with
      | none => none
      | some st1 =>
        match addLine g e.source tid e.flow_type st1 with
        | none => none
        | some st2 => processIncoming g pt tid rest st2

/-- The `for outd in out_sorted` loop of `process_target`. -/
def processOutgoing (g : HGraph) (pt : String → NarState → Option NarState)
    (tid : String) : List FlowOut → NarState → Option NarState
  | [], st => some st
  | e :: rest, st =>
    match addLine g tid e.target e.flow_type st with
    | none => none
    | some st1 =>
      match pt e.target st1 with
      | none => none
      | some st2 => processOutgoing g pt tid rest st2

/-- Embeds `process_target(tid)` with recursion-depth fuel; `none` models a
recursion that does not complete within the bound or a `KeyError`. -/
def processTarget (g : HGraph) (memo : Memo) : Nat → String → NarState → Option NarState
  | 0, _, _ => none
  | fuel + 1, tid, st =>
    if tid ∈ st.visitedTargets then some st
    else
      match lookupShape g tid with
      | none => none
      | some sh =>
        match processIncoming g (processTarget g memo fuel) tid sh.incoming st with
        | none => none
        | some st1 =>
          match
            (if sh.outgoing.isEmpty then
              some (pushNoDis sh tid st1)
            else
              match sortOutgoing memo sh.outgoing with
              | none => none
              | some sortedOuts => processOutgoing g (processTarget g memo fuel) tid sortedOuts st1)
          with
          | none => none
          | some st2 => some { st2 with visitedTargets := tid :: st2.visitedTargets }

/-- The memo-building loop at the top of `narrative_summary`:
`for sid in shapes_by_id: compute_branch_length(shapes_by_id, sid, memo_lengths)`. -/
def buildMemo (g : HGraph) (fuel : Nat) : Option Memo :=
  g.foldl
    (fun acc p =>
      match acc with
      | none => none
      | some memo =>
        match computeBranchLength g fuel p.1 memo with
        | none => none
        | some (_, memo') => some memo')
    (some [])

/-- The traversal roots: non-Comment vertices with empty `incoming`, in
dict order. -/
def startShapes (g : HGraph) : List String :=
  (g.filter (fun p => p.2.hydro_type != "Comment/Note" && p.2.incoming.isEmpty)).map (·.1)

/-- Embeds `for s_id in start_shapes: process_target(s_id)`. -/
def runTargets (g : HGraph) (memo : Memo) (fuel : Nat) :
    List String → NarState → Option NarState
  | [], st => some st
  | sid :: rest, st =>
    match processTarget g memo fuel sid st with
    | none => none
    | some st' => runTargets g memo fuel rest st'

/-- Embeds `for sid in shapes_by_id: if sid not in visited_targets: process_target(sid)`. -/
def sweepTargets (g : HGraph) (memo : Memo) (fuel : Nat) :
    List String → NarState → Option NarState
  | [], st => some st
  | sid :: rest, st =>
    if sid ∈ st.visitedTargets then sweepTargets g memo fuel rest st
    else
      match processTarget g memo fuel sid st with
      | none => none
      | some st' => sweepTargets g memo fuel rest st'

/-- The vertices the orphan pass collects: empty `incoming`, empty
`outgoing`, and not of Comment kind. -/
def orphanShapes (g : HGraph) : HGraph :=
  g.filter (fun p => p.2.incoming.isEmpty && p.2.outgoing.isEmpty && p.2.hydro_type != "Comment/Note")

/-- The trailing orphan block: a header, one indented entry per orphan
(label with id fallback), then a blank line; absent when no orphan exists. -/
def orphanBlock (g : HGraph) : List NarLine :=
  if orphanShapes g = [] then []
  else
    NarLine.orphanHeader "The following shapes are not connected to any flow path:" ::
      (orphanShapes g).map
        (fun p => NarLine.orphanEntry p.1 ("  - " ++ p.2.hydro_type ++ " " ++ labelOrId p.2 p.1)) ++
      [NarLine.blank]

/-- Embeds `narrative_summary(shapes_by_id)` with recursion fuel, returning the
final traversal state (tagged lines plus both visited sets). -/
def narrativeSummary (g : HGraph) (fuel : Nat) : Option NarState :=
  match buildMemo g fuel with
  | none => none
  | some memo =>
    match runTargets g memo fuel (startShapes g) initNarState with
    | none => none
    | some st1 =>
      match sweepTargets g memo fuel (g.map (·.1)) st1 with
      | none => none
      | some st2 => some { st2 with lines := st2.lines ++ orphanBlock g }

/-- The string `narrative_summary` returns: `"\n".join(lines)`. -/
def narrativeText (g : HGraph) (fuel : Nat) : Option String :=
  (narrativeSummary g fuel).map
    (fun st => String.intercalate "\n" (st.lines.map NarLine.textOf))

/-- The externally supplied drainage-area mapping, a Python dict keyed by
the composite strings the composer looks up; areas are modelled as
rationals. -/
abbrev AreaMap := List (String × ℚ)

/-- Area-mapping dict lookup. -/
def amFind : AreaMap → String → Option ℚ
  | [], _ => none
  | p :: rest, k => if p.1 = k then some p.2 else amFind rest k

/-- Embeds `f"PERLND {label}.0"`. -/
def perlndKey (label : String) : String := "PERLND " ++ label ++ ".0"

/-- Embeds `f"IMPLND {label}.0"`. -/
def implndKey (label : String) : String := "IMPLND " ++ label ++ ".0"

/-- Embeds `rchres_groups`: a dict from a group key (a reach label) to its list
of statement lines, in insertion order. -/
abbrev Groups := List (String × List String)

/-- Group dict lookup. -/
def groupsFind : Groups → String → Option (List String)
  | [], _ => none
  | p :: rest, k => if p.1 = k then some p.2 else groupsFind rest k

/-- Embeds `if key not in rchres_groups: rchres_groups[key] = []`. -/
def ensureGroup (gs : Groups) (k : String) : Groups :=
  if (groupsFind gs k).isSome then gs else gs ++ [(k, [])]

/-- Embeds `rchres_groups[key].append(line)` (the key is present when called). -/
def appendGroup (gs : Groups) (k : String) (line : String) : Groups :=
  if (groupsFind gs k).isSome then
    gs.map (fun p => if p.1 = k then (p.1, p.2 ++ [line]) else p)
  else gs ++ [(k, [line])]

/-- The drainage-area value written into a statement line:
`round(raw / 100000, 7)`. -/
def scaledArea (a : ℚ) : ℚ := roundQ7 (a / 100000)

/-- The PERLND statement line of step 1. -/
def perlndLine (label targetLabel : String) (a : ℚ) : String :=
  "PERLND " ++ ljust label 3 ++ " PWATER PERO      " ++ areaField a ++
    "      RCHRES " ++ ljust targetLabel 3 ++ "     INFLOW"

/-- The IMPLND statement line of step 1. -/
def implndLine (label targetLabel : String) (a : ℚ) : String :=
  "IMPLND " ++ ljust label 3 ++ " IWATER SURO      " ++ areaField a ++
    "      RCHRES " ++ ljust targetLabel 3 ++ "     INFLOW"

/-- The RCHRES routing statement line of step 2. -/
def rchresLine (label targetLabel : String) : String :=
  "RCHRES " ++ ljust label 3 ++ " HYDR   ROVOL                    RCHRES " ++
    ljust targetLabel 3 ++ "     INFLOW"

/-- Embeds `sorted(shapes_by_id.items(), key=lambda x: x[1]["label"])`. -/
def sortedByLabel (g : HGraph) : HGraph :=
  sortBy (fun a b => strLe a.2.label b.2.label) g

/-- Step 1 of `generate_corrected_network_block` for one dict item:
Subcatchments contribute a PERLND and/or an IMPLND line to the group of
their first outgoing target's label. -/
def step1Body (g : HGraph) (m : AreaMap) (st : Groups) (p : String × Shape) : Groups :=
  let sh := p.2
  if sh.hydro_type = "Subcatchment" then
    match sh.outgoing with
    | [] => st
    | e :: _ =>
      match lookupShape g e.target with
      | none => st
      | some tgt =>
        let st := ensureGroup st tgt.label
        let st :=
          match amFind m (perlndKey sh.label) with
          | some a => appendGroup st tgt.label (perlndLine sh.label tgt.label a)
          | none => st
        match amFind m (implndKey sh.label) with
        | some a => appendGroup st tgt.label (implndLine sh.label tgt.label a)
        | none => st
  else st

/-- Step 2 of `generate_corrected_network_block` for one dict item:
RCHRES/Node/SWM Facility vertices contribute one routing line per outgoing
edge to the group of their own label. -/
def step2Body (g : HGraph) (st : Groups) (p : String × Shape) : Groups :=
  if p.2.hydro_type = "RCHRES" ∨ p.2.hydro_type = "Node" ∨ p.2.hydro_type = "SWM Facility" then
    p.2.outgoing.foldl
      (fun st conn =>
        match lookupShape g conn.target with
        | none => st
        | some tgt => appendGroup (ensureGroup st p.2.label) p.2.label (rchresLine p.2.label tgt.label))
      st
  else st

/-- The `rchres_groups` dict after steps 1 and 2. -/
def rchresGroups (g : HGraph) (m : AreaMap) : Groups :=
  (sortedByLabel g).foldl (step2Body g) ((sortedByLabel g).foldl (step1Body g m) [])

/-- Embeds `line.split()[-2]`, the token before the trailing fixed suffix. -/
def rchSplitTarget (line : String) : String :=
  let parts := pySplit line
  (parts.get? (parts.length - 2)).getD ""

/-- The `for line in rchres_groups.get(label, [])` loop of step 3, with
the recursive call passed as `pr`; the state is `(processed_rchres,
network_lines)`. -/
def rchLoop (groups : Groups) (pr : String → List String × List String → Option (List String × List String)) :
    List String → List String × List String → Option (List String × List String)
  | [], st => some st
  | line :: rest, st =>
    if pyContains line "RCHRES" then
      let tl := rchSplitTarget line
      if (groupsFind groups tl).isSome then
        match pr tl st with
        | none => none
        | some st' => rchLoop groups pr rest st'
      else rchLoop groups pr rest st
    else rchLoop groups pr rest st

/-- Embeds `process_rchres(label)` with recursion fuel: emit the group's lines
plus a separating blank (when the group is non-empty), mark the label
processed, then recursively visit every group named as a destination in
the just-emitted lines. -/
def processRch (groups : Groups) : Nat → String → List String × List String → Option (List String × List String)
  | 0, _, _ => none
  | fuel + 1, label, st =>
    if label ∈ st.1 then some st
    else
      let glines := (groupsFind groups label).getD []
      let outLines := if glines ≠ [] then st.2 ++ glines ++ [""] else st.2
      rchLoop groups (processRch groups fuel) glines (label :: st.1, outLines)

/-- The `for label in rchres_groups` driver of step 3. -/
def rchDriver (groups : Groups) (fuel : Nat) :
    List String → List String × List String → Option (List String × List String)
  | [], st => some st
  | k :: rest, st =>
    match processRch groups fuel k st with
    | none => none
    | some st' => rchDriver groups fuel rest st'

/-- Embeds `if network_lines and network_lines[-1] == "": network_lines.pop()`. -/
def trimTrailingBlank (lines : List String) : List String :=
  if lines ≠ [] ∧ lines.getLast? = some "" then lines.dropLast else lines

/-- Embeds `generate_corrected_network_block(shapes_by_id, drainage_area_mapping)`
with recursion fuel for step 3. The outer `Option` is the fuel bound; the
inner `Option` is the function's own result: `none` is the Python
`return None` taken when no lines were produced, `some lines` the
ordinary non-empty output. -/
def generate_corrected_network_block (g : HGraph) (m : AreaMap) (fuel : Nat) :
    Option (Option (List String)) :=
  let groups := rchresGroups g m
  match rchDriver groups fuel (groups.map (·.1)) ([], []) with
  | none => none
  | some st =>
    let lines := trimTrailingBlank st.2
    some (if lines = [] then none else some lines)

/-- The state of `generate_operation_sequence_block`: the output sequence,
the `processed_operations` set, the `referenced_rchres_targets` set and
the current group. -/
structure OpState where
  seq : List String
  processed : List String
  referenced : List String
  cur : List String
deriving DecidableEq, Repr

/-- Embeds `flush_group()`. -/
def flushGroup (st : OpState) : OpState :=
  if st.cur ≠ [] then { st with seq := st.seq ++ st.cur ++ [""], cur := [] } else st

/-- The operation token of a line: `f"{parts[0]} {parts[1]}"`. -/
def opOf (line : String) : String :=
  ((pySplit line).get? 0).getD "" ++ " " ++ ((pySplit line).get? 1).getD ""

/-- The referenced destination of a line: `f"RCHRES {parts[-2]}"`. -/
def refTargetOf (line : String) : String :=
  "RCHRES " ++ ((pySplit line).get? ((pySplit line).length - 2)).getD ""

/-- Embeds `if operation not in processed_operations: ... add and append`. -/
def opProcUpdate (st : OpState) (op : String) : OpState :=
  if op ∈ st.processed then st
  else { st with processed := st.processed ++ [op], cur := st.cur ++ [op] }

/-- Embeds `if parts[0] == "RCHRES" and len(parts) >= 8: referenced.add(...)`. -/
def opRefsUpdate (st : OpState) (line : String) : OpState :=
  if ((pySplit line).get? 0).getD "" = "RCHRES" ∧ 8 ≤ (pySplit line).length then
    (if refTargetOf line ∈ st.referenced then st
     else { st with referenced := st.referenced ++ [refTargetOf line] })
  else st

/-- The loop body of `generate_operation_sequence_block` for one line. -/
def opSeqStep (st : OpState) (line : String) : OpState :=
  if pyStrip line = "" then flushGroup st
  else if (pySplit line).length < 2 then st
  else opRefsUpdate (opProcUpdate st (opOf line)) line

/-- Embeds `while operation_sequence and operation_sequence[-1] == "": ... pop()`. -/
def dropTrailingBlanks (l : List String) : List String :=
  (l.reverse.dropWhile (fun s => s = "")).reverse

/-- The tail of `generate_operation_sequence_block`: append the group of
dangling referenced targets (`referenced - processed`, sorted) after a
separating blank line, when any exist. -/
def opFinalSeq (st : OpState) : List String :=
  if st.referenced.filter (fun t => t ∉ st.processed) ≠ [] then
    st.seq ++ [""] ++ sortBy strLe (st.referenced.filter (fun t => t ∉ st.processed))
  else st.seq

/-- Embeds `generate_operation_sequence_block(network_block)`. -/
def generate_operation_sequence_block (network_block : List String) : List String :=
  dropTrailingBlanks (opFinalSeq (flushGroup (network_block.foldl opSeqStep ⟨[], [], [], []⟩)))

/-- A two-vertex cyclic flow graph: `x → y → x`. -/
def gCyc : HGraph :=
  [("x", ⟨"10", "RCHRES", [⟨"y", "Surface"⟩], [⟨"y", "Surface"⟩]⟩),
   ("y", ⟨"11", "RCHRES", [⟨"x", "Surface"⟩], [⟨"x", "Surface"⟩]⟩)]

theorem cbl_gCyc_none :
    ∀ fuel, computeBranchLength gCyc fuel "x" [] = none ∧
      computeBranchLength gCyc fuel "y" [] = none := by
  intro fuel
  induction fuel with
  | zero => exact ⟨rfl, rfl⟩
  | succ n ih =>
    obtain ⟨ihx, ihy⟩ := ih
    simp only [gCyc] at ihx ihy
    refine ⟨?_, ?_⟩
    · simp [computeBranchLength, gCyc, memoFind, lookupShape, cblFold, ihy]
    · simp [computeBranchLength, gCyc, memoFind, lookupShape, cblFold, ihx]

theorem ns_gCyc_none : ∀ fuel, narrativeSummary gCyc fuel = none := by
  intro fuel
  have h := (cbl_gCyc_none fuel).1
  simp [narrativeSummary, buildMemo, gCyc, List.foldl, h]
  simp [gCyc] at h
  simp [h]

/-- C1 (amended): the code has no cycle guard and no `CyclicGraphError`:
on the cyclic graph `x → y → x`, `compute_branch_length` and
`narrative_summary` fail to complete for every recursion bound instead of
surfacing a named error. -/
theorem C1_cycle_no_termination :
    ∀ fuel, computeBranchLength gCyc fuel "x" [] = none ∧
      narrativeSummary gCyc fuel = none := by
  intro fuel
  exact ⟨(cbl_gCyc_none fuel).1, ns_gCyc_none fuel⟩

/-- C1 counterexample: on the cyclic graph `x → y → x` neither
`compute_branch_length` nor `narrative_summary` ever returns a result or
a named error — the recursion completes under no bound at all, refuting
the claim that cyclic input surfaces an explicit `CyclicGraphError`. -/
theorem C1_counterexample :
    ¬ (∃ fuel r, computeBranchLength gCyc fuel "x" [] = some r) ∧
    ¬ (∃ fuel st, narrativeSummary gCyc fuel = some st) := by
  constructor
  · rintro ⟨fuel, r, h⟩
    rw [(cbl_gCyc_none fuel).1] at h
    cases h
  · rintro ⟨fuel, st, h⟩
    rw [ns_gCyc_none fuel] at h
    cases h

/-- A ranking certificate of downstream acyclicity: every edge strictly
decreases the rank, and every edge target resolves in the graph. -/
def ClosedRanked (g : HGraph) (rank : String → Nat) : Prop :=
  ∀ p ∈ g, ∀ e ∈ p.2.outgoing,
    (lookupShape g e.target).isSome = true ∧ rank e.target < rank p.1

/-- The function `D` satisfies the depth recurrence of the spec: depth 1 at a sink
(the fold over an empty list is 0), otherwise one more than the running
maximum — computed exactly as the source loop does — over the outgoing
targets. -/
def DepthSpec (g : HGraph) (D : String → Nat) : Prop :=
  ∀ p ∈ g,
    D p.1 = 1 + p.2.outgoing.foldl (fun a e => if a < D e.target then D e.target else a) 0

/-- Every memo entry stores the depth of its key. -/
def MemoOK (D : String → Nat) (memo : Memo) : Prop := ∀ q ∈ memo, q.2 = D q.1

theorem cblFold_correct (g : HGraph) (D : String → Nat) (n : Nat) (Q : String → Prop)
    (hrec : ∀ id memo, MemoOK D memo → Q id →
      ∃ memo', computeBranchLength g n id memo = some (D id, memo') ∧ MemoOK D memo') :
    ∀ outs maxd memo, MemoOK D memo →
      (∀ e ∈ outs, Q e.target) →
      ∃ memo', cblFold (computeBranchLength g n) outs maxd memo =
        some (outs.foldl (fun a e => if a < D e.target then D e.target else a) maxd, memo') ∧
        MemoOK D memo' := by
  intro outs
  induction outs with
  | nil => exact fun maxd memo hm _ => ⟨memo, rfl, hm⟩
  | cons e rest ih =>
    intro maxd memo hm hall
    obtain ⟨memo1, hcbl, hm1⟩ :=
      hrec e.target memo hm (hall e (List.mem_cons_self _ _))
    obtain ⟨memo2, hfold, hm2⟩ :=
      ih (if maxd < D e.target then D e.target else maxd) memo1 hm1
        (fun e' he' => hall e' (List.mem_cons_of_mem _ he'))
    exact ⟨memo2, by simp [cblFold, hcbl, hfold], hm2⟩

theorem cbl_correct (g : HGraph) (rank D : String → Nat)
    (hC : ClosedRanked g rank) (hD : DepthSpec g D) :
    ∀ fuel id memo, MemoOK D memo → (lookupShape g id).isSome = true → rank id < fuel →
      ∃ memo', computeBranchLength g fuel id memo = some (D id, memo') ∧ MemoOK D memo' := by
  intro fuel
  induction fuel with
  | zero => exact fun id memo _ _ hr => absurd hr (Nat.not_lt_zero _)
  | succ n ih =>
    intro id memo hm hs hr
    obtain ⟨sh, hsh⟩ := Option.isSome_iff_exists.mp hs
    have hmem := lookupShape_mem hsh
    cases hfind : memoFind memo id with
    | some d =>
      have hd : d = D id := hm _ (memoFind_mem hfind)
      exact ⟨memo, by simp [computeBranchLength, hfind, hd], hm⟩
    | none =>
      cases houts : sh.outgoing with
      | nil =>
        have hDid : D id = 1 := by
          have h := hD _ hmem
          rw [houts] at h
          simpa [List.foldl] using h
        refine ⟨(id, 1) :: memo, ?_, ?_⟩
        · simp [computeBranchLength, hfind, hsh, houts, hDid]
        · intro q hq
          rcases List.mem_cons.mp hq with h | h
          · subst h; simp [hDid]
          · exact hm _ h
      | cons e rest =>
        have hall : ∀ e' ∈ sh.outgoing,
            (lookupShape g e'.target).isSome = true ∧ rank e'.target < n := by
          intro e' he'
          obtain ⟨h1, h2⟩ := hC _ hmem e' he'
          exact ⟨h1, lt_of_lt_of_le h2 (Nat.lt_succ_iff.mp hr)⟩
        rw [houts] at hall
        obtain ⟨memo2, hfold, hm2⟩ :=
          cblFold_correct g D n
            (fun t => (lookupShape g t).isSome = true ∧ rank t < n)
            (fun t memo' hm' hq => ih t memo' hm' hq.1 hq.2)
            (e :: rest) 0 memo hm (fun e' he' => hall e' he')
        have hDid : D id =
            1 + (e :: rest).foldl (fun a e => if a < D e.target then D e.target else a) 0 := by
          have h := hD _ hmem
          rw [houts] at h
          exact h
        refine ⟨(id, D id) :: memo2, ?_, ?_⟩
        · simp [computeBranchLength, hfind, hsh, houts, hfold, hDid]
        · intro q hq
          rcases List.mem_cons.mp hq with h | h
          · subst h; rfl
          · exact hm2 _ h

theorem foldl_maxstep_le (D : String → Nat) : ∀ (l : List FlowOut) (a : Nat),
    a ≤ l.foldl (fun a e => if a < D e.target then D e.target else a) a := by
  intro l
  induction l with
  | nil => exact fun a => le_refl a
  | cons e rest ih =>
    intro a
    rw [List.foldl_cons]
    refine le_trans ?_ (ih _)
    split <;> omega

theorem depth_pos (g : HGraph) (D : String → Nat) (hD : DepthSpec g D)
    {id : String} {sh : Shape} (h : lookupShape g id = some sh) : 1 ≤ D id := by
  have hd := hD _ (lookupShape_mem h)
  dsimp only at hd
  omega

/-- The two-vertex scenario graph of the spec:
`A(Subcatchment, "1") → B(Reach, "5")`. -/
def shapeScA : Shape := ⟨"1", "Subcatchment", [], [⟨"b", "Surface"⟩]⟩

/-- The reach vertex of the scenario graph. -/
def shapeScB : Shape := ⟨"5", "RCHRES", [⟨"a", "Surface"⟩], []⟩

/-- The scenario flow graph. -/
def gScen : HGraph := [("a", shapeScA), ("b", shapeScB)]

/-- The scenario area mapping, under the composite keys the code builds
from the external pervious/impervious areas (`"PERLND <label>.0"` /
`"IMPLND <label>.0"`). -/
def mScen : AreaMap := [("PERLND 1.0", 50000), ("IMPLND 1.0", 25000)]

/-- A ranking witness of the scenario graph's acyclicity. -/
def rankScen : String → Nat := fun s => if s = "a" then 1 else 0

/-- The depth function of the scenario graph. -/
def depthScen : String → Nat :=
  fun s => if s = "a" then 2 else if s = "b" then 1 else 0

/-- C2: for every vertex `v` of an acyclic flow graph (acyclicity given by
a rank certificate) and any depth function `D` satisfying the spec's
recurrence — 1 at a sink, else one more than the maximum over outgoing
targets — `compute_branch_length` (fresh memo, enough fuel) returns
exactly `D v`; moreover `D v ≥ 1`, with `D v = 1` iff `v.outgoing` is
empty. -/
theorem C2_depth_recurrence (g : HGraph) (rank D : String → Nat)
    (hC : ClosedRanked g rank) (hD : DepthSpec g D)
    (v : String) (sh : Shape) (hv : lookupShape g v = some sh)
    (fuel : Nat) (hf : rank v < fuel) :
    (∃ memo', computeBranchLength g fuel v [] = some (D v, memo')) ∧
    1 ≤ D v ∧ (D v = 1 ↔ sh.outgoing = []) := by
  have hmem := lookupShape_mem hv
  have hd := hD _ hmem
  obtain ⟨memo', hcbl, _⟩ :=
    cbl_correct g rank D hC hD fuel v []
      (fun q hq => absurd hq (List.not_mem_nil _)) (by rw [hv]; rfl) hf
  refine ⟨⟨memo', hcbl⟩, depth_pos g D hD hv, ?_⟩
  cases houts : sh.outgoing with
  | nil =>
    rw [houts] at hd
    simp [List.foldl] at hd
    simp [hd]
  | cons e rest =>
    rw [houts] at hd
    obtain ⟨hs', _⟩ := hC _ hmem e (by rw [houts]; exact List.mem_cons_self _ _)
    obtain ⟨sh', hsh'⟩ := Option.isSome_iff_exists.mp hs'
    have het : 1 ≤ D e.target := depth_pos g D hD hsh'
    have hfold : D e.target ≤
        (e :: rest).foldl (fun a e => if a < D e.target then D e.target else a) 0 := by
      rw [List.foldl_cons]
      have h0 : (if 0 < D e.target then D e.target else 0) = D e.target := by
        rw [if_pos (by omega)]
      rw [h0]
      exact foldl_maxstep_le D rest (D e.target)
    constructor
    · intro h1
      rw [h1] at hd
      omega
    · intro h
      exact absurd h (List.cons_ne_nil _ _)

/-- Witness for C2 at the concrete scenario graph. -/
theorem C2_depth_recurrence_witness :
    (∃ memo', computeBranchLength gScen 2 "a" [] = some (depthScen "a", memo')) ∧
    1 ≤ depthScen "a" ∧ (depthScen "a" = 1 ↔ shapeScA.outgoing = []) :=
  C2_depth_recurrence gScen rankScen depthScen
    (by unfold ClosedRanked; decide) (by unfold DepthSpec; decide)
    "a" shapeScA (by decide) 2 (by decide)

/-- Test for a discharge line with the given key. -/
def isDisKey (k : LineKey) : NarLine → Bool
  | NarLine.discharge q _ => decide (q = k)
  | _ => false

/-- Lines that belong to the trailing orphan block (or its blank line). -/
def isOrphanTag : NarLine → Bool
  | NarLine.orphanHeader _ => true
  | NarLine.orphanEntry _ _ => true
  | NarLine.blank => true
  | _ => false

/-- Well-formedness of a line produced during the traversal phase (before
the orphan pass): a discharge line carries exactly the formatted sentence
of its key, a no-discharge line belongs to a non-Comment sink, and no
orphan-block line exists yet. -/
def LineOK (g : HGraph) : NarLine → Prop
  | NarLine.discharge k txt =>
      ∃ src tgt, lookupShape g k.1 = some src ∧ lookupShape g k.2.1 = some tgt ∧
        txt = dischargeText src k.1 tgt k.2.1 k.2.2
  | NarLine.noDischarge sid txt =>
      ∃ sh, lookupShape g sid = some sh ∧ sh.outgoing = [] ∧
        sh.hydro_type ≠ "Comment/Note" ∧ txt = noDischargeText sh
  | NarLine.orphanHeader _ => False
  | NarLine.orphanEntry _ _ => False
  | NarLine.blank => False

/-- The traversal invariant: a discharge line for key `k` appears exactly
once if `k` is in the `visited_lines` set and never otherwise, and every
line is well-formed. -/
def TravInv (g : HGraph) (st : NarState) : Prop :=
  (∀ k : LineKey, st.lines.countP (isDisKey k) = if k ∈ st.visitedLines then 1 else 0) ∧
  (∀ l ∈ st.lines, LineOK g l)

theorem travInv_init (g : HGraph) : TravInv g initNarState := by
  constructor
  · intro k
    simp [initNarState]
  · intro l hl
    simp [initNarState] at hl

theorem addLine_inv {g : HGraph} {s t f : String} {st st' : NarState}
    (h : addLine g s t f st = some st') (hI : TravInv g st) : TravInv g st' := by
  unfold addLine at h
  by_cases hk : (s, t, f) ∈ st.visitedLines
  · rw [if_pos hk] at h
    injection h with h
    subst h
    exact hI
  · rw [if_neg hk] at h
    cases hsrc : lookupShape g s with
    | none => rw [hsrc] at h; simp at h
    | some src =>
      cases htgt : lookupShape g t with
      | none => rw [hsrc, htgt] at h; simp at h
      | some tgt =>
        rw [hsrc, htgt] at h
        simp at h
        subst h
        obtain ⟨hcnt, hok⟩ := hI
        constructor
        · intro k
          simp only [List.countP_append]
          by_cases hkk : k = (s, t, f)
          · subst hkk
            have h0 : st.lines.countP (isDisKey (s, t, f)) = 0 := by
              rw [hcnt]
              simp [hk]
            simp [h0, isDisKey, List.countP_cons]
          · have h1 : List.countP (isDisKey k)
                [NarLine.discharge (s, t, f) (dischargeText src s tgt t f)] = 0 := by
              simp [isDisKey, List.countP_cons]
              exact fun hh => absurd hh.symm hkk
            rw [h1, hcnt k]
            have : (k ∈ (s, t, f) :: st.visitedLines) ↔ k ∈ st.visitedLines := by
              simp [hkk]
            simp [this]
        · intro l hl
          rcases List.mem_append.mp hl with h1 | h1
          · exact hok l h1
          · simp at h1
            subst h1
            exact ⟨src, tgt, hsrc, htgt, rfl⟩

theorem pushNoDis_inv {g : HGraph} {sh : Shape} {sid : String} {st : NarState}
    (hs : lookupShape g sid = some sh) (ho : sh.outgoing = []) (hI : TravInv g st) :
    TravInv g (pushNoDis sh sid st) := by
  unfold pushNoDis
  obtain ⟨hcnt, hok⟩ := hI
  by_cases hc : sh.hydro_type ≠ "Comment/Note"
  · rw [if_pos hc]
    constructor
    · intro k
      simp only [List.countP_append]
      have h1 : List.countP (isDisKey k) [NarLine.noDischarge sid (noDischargeText sh)] = 0 := by
        simp [isDisKey, List.countP_cons]
      rw [h1, hcnt k]
      simp
    · intro l hl
      rcases List.mem_append.mp hl with h1 | h1
      · exact hok l h1
      · simp at h1
        subst h1
        exact ⟨sh, hs, ho, hc, rfl⟩
  · rw [if_neg hc]
    exact ⟨hcnt, hok⟩

theorem processIncoming_inv (g : HGraph) (pt : String → NarState → Option NarState)
    (hpt : ∀ sid st st', pt sid st = some st' → TravInv g st → TravInv g st')
    (tid : String) :
    ∀ (l : List FlowIn) (st st' : NarState),
      processIncoming g pt tid l st = some st' → TravInv g st → TravInv g st' := by
  intro l
  induction l with
  | nil =>
    intro st st' h hI
    unfold processIncoming at h
    injection h with h
    subst h
    exact hI
  | cons e rest ih =>
    intro st st' h hI
    unfold processIncoming at h
    split at h
    · exact ih _ _ h hI
    · split at h
      · simp at h
      · rename_i st1 hp
        split at h
        · simp at h
        · rename_i st2 ha
          exact ih _ _ h (addLine_inv ha (hpt _ _ _ hp hI))

theorem processOutgoing_inv (g : HGraph) (pt : String → NarState → Option NarState)
    (hpt : ∀ sid st st', pt sid st = some st' → TravInv g st → TravInv g st')
    (tid : String) :
    ∀ (l : List FlowOut) (st st' : NarState),
      processOutgoing g pt tid l st = some st' → TravInv g st → TravInv g st' := by
  intro l
  induction l with
  | nil =>
    intro st st' h hI
    unfold processOutgoing at h
    injection h with h
    subst h
    exact hI
  | cons e rest ih =>
    intro st st' h hI
    unfold processOutgoing at h
    split at h
    · simp at h
    · rename_i st1 ha
      split at h
      · simp at h
      · rename_i st2 hp
        exact ih _ _ h (hpt _ _ _ hp (addLine_inv ha hI))

theorem processTarget_inv (g : HGraph) (memo : Memo) :
    ∀ (fuel : Nat) (tid : String) (st st' : NarState),
      processTarget g memo fuel tid st = some st' → TravInv g st → TravInv g st' := by
  intro fuel
  induction fuel with
  | zero =>
    intro tid st st' h
    simp [processTarget] at h
  | succ n ih =>
    intro tid st st' h hI
    unfold processTarget at h
    split at h
    · injection h with h
      subst h
      exact hI
    · split at h
      · simp at h
      · rename_i sh hsh
        split at h
        · simp at h
        · rename_i st1 hinc
          split at h
          · simp at h
          · rename_i st2 hbr
            injection h with h
            subst h
            have hI1 : TravInv g st1 :=
              processIncoming_inv g _ (fun sid a b hh hind => ih sid a b hh hind)
                tid sh.incoming st st1 hinc hI
            have hI2 : TravInv g st2 := by
              by_cases hout : sh.outgoing.isEmpty
              · rw [if_pos hout] at hbr
                injection hbr with hbr
                subst hbr
                exact pushNoDis_inv hsh (List.isEmpty_iff.mp hout) hI1
              · rw [if_neg hout] at hbr
                split at hbr
                · simp at hbr
                · rename_i sortedOuts hsort
                  exact processOutgoing_inv g _ (fun sid a b hh hind => ih sid a b hh hind)
                    tid sortedOuts st1 st2 hbr hI1
            exact hI2

theorem runTargets_inv (g : HGraph) (memo : Memo) (fuel : Nat) :
    ∀ (l : List String) (st st' : NarState),
      runTargets g memo fuel l st = some st' → TravInv g st → TravInv g st' := by
  intro l
  induction l with
  | nil =>
    intro st st' h hI
    unfold runTargets at h
    injection h with h
    subst h
    exact hI
  | cons sid rest ih =>
    intro st st' h hI
    unfold runTargets at h
    split at h
    · simp at h
    · rename_i st1 hp
      exact ih _ _ h (processTarget_inv g memo fuel sid st st1 hp hI)

theorem sweepTargets_inv (g : HGraph) (memo : Memo) (fuel : Nat) :
    ∀ (l : List String) (st st' : NarState),
      sweepTargets g memo fuel l st = some st' → TravInv g st → TravInv g st' := by
  intro l
  induction l with
  | nil =>
    intro st st' h hI
    unfold sweepTargets at h
    injection h with h
    subst h
    exact hI
  | cons sid rest ih =>
    intro st st' h hI
    unfold sweepTargets at h
    split at h
    · exact ih _ _ h hI
    · split at h
      · simp at h
      · rename_i st1 hp
        exact ih _ _ h (processTarget_inv g memo fuel sid st st1 hp hI)

/-- Every successful run of `narrative_summary` is a traversal-phase state
satisfying the invariant, followed by the orphan block. -/
theorem narrativeSummary_trav (g : HGraph) (fuel : Nat) (st : NarState)
    (h : narrativeSummary g fuel = some st) :
    ∃ st2, TravInv g st2 ∧ st = { st2 with lines := st2.lines ++ orphanBlock g } := by
  unfold narrativeSummary at h
  split at h
  · simp at h
  · rename_i memo hmemo
    split at h
    · simp at h
    · rename_i st1 hrun
      split at h
      · simp at h
      · rename_i st2 hsweep
        injection h with h
        refine ⟨st2, ?_, h.symm⟩
        exact sweepTargets_inv g memo fuel _ st1 st2 hsweep
          (runTargets_inv g memo fuel _ initNarState st1 hrun (travInv_init g))

theorem orphanBlock_countP_dis (g : HGraph) (k : LineKey) :
    (orphanBlock g).countP (isDisKey k) = 0 := by
  apply List.countP_eq_zero.mpr
  intro l hl
  unfold orphanBlock at hl
  by_cases h : orphanShapes g = []
  · simp [h] at hl
  · rw [if_neg h] at hl
    rcases List.mem_cons.mp hl with rfl | hl
    · simp [isDisKey]
    · rcases List.mem_append.mp hl with hl | hl
      · obtain ⟨p, _, rfl⟩ := List.mem_map.mp hl
        simp [isDisKey]
      · simp at hl
        subst hl
        simp [isDisKey]

/-- C3: whenever `narrative_summary` completes, its line list contains at
most one discharge sentence per ordered key `(source, target, flowKind)`,
no matter how many graph paths reach that pair. -/
theorem C3_no_duplicate_discharge (g : HGraph) (fuel : Nat) (st : NarState)
    (h : narrativeSummary g fuel = some st) (k : LineKey) :
    st.lines.countP (isDisKey k) ≤ 1 := by
  obtain ⟨st2, ⟨hcnt, _⟩, rfl⟩ := narrativeSummary_trav g fuel st h
  show (st2.lines ++ orphanBlock g).countP (isDisKey k) ≤ 1
  rw [List.countP_append, orphanBlock_countP_dis, hcnt k]
  split <;> omega

/-- The final narrative state of the scenario graph. -/
def stScen : NarState :=
  ⟨[("a", "b", "Surface")], ["a", "b"],
   [NarLine.discharge ("a", "b", "Surface")
      "Subcatchment 1 discharges (Surface) to RCHRES 5.",
    NarLine.noDischarge "b"
      "RCHRES 5 does not discharge to any recognized element."]⟩

/-- Witness for C3 at the concrete scenario graph. -/
theorem C3_no_duplicate_discharge_witness :
    stScen.lines.countP (isDisKey ("a", "b", "Surface")) ≤ 1 :=
  C3_no_duplicate_discharge gScen 10 stScen (by decide) ("a", "b", "Surface")

/-- Test for the orphan entry of the given vertex id. -/
def isOrphanEntryFor (sid : String) : NarLine → Bool
  | NarLine.orphanEntry q _ => decide (q = sid)
  | _ => false

theorem mem_lookupShape {g : HGraph} (hN : (g.map Prod.fst).Nodup) {sid : String}
    {sh : Shape} (h : (sid, sh) ∈ g) : lookupShape g sid = some sh := by
  induction g with
  | nil => simp at h
  | cons p rest ih =>
    obtain ⟨k, v⟩ := p
    simp only [List.map_cons, List.nodup_cons] at hN
    rcases List.mem_cons.mp h with h | h
    · injection h with h1 h2
      subst h1
      subst h2
      simp [lookupShape]
    · by_cases hk : k = sid
      · subst hk
        exact absurd (List.mem_map.mpr ⟨(k, sh), h, rfl⟩) hN.1
      · simp only [lookupShape, if_neg hk]
        exact ih hN.2 h

theorem countP_fst_eq_zero {l : List (String × Shape)} {sid : String}
    (h : sid ∉ l.map Prod.fst) :
    l.countP (fun p => decide (p.1 = sid)) = 0 := by
  apply List.countP_eq_zero.mpr
  intro q hq
  simp only [decide_eq_true_eq]
  intro hq1
  exact h (List.mem_map.mpr ⟨q, hq, hq1⟩)

theorem countP_fst_eq_one {l : List (String × Shape)} (hN : (l.map Prod.fst).Nodup)
    {sid : String} {sh : Shape} (h : (sid, sh) ∈ l) :
    l.countP (fun p => decide (p.1 = sid)) = 1 := by
  induction l with
  | nil => simp at h
  | cons p rest ih =>
    obtain ⟨k, v⟩ := p
    simp only [List.map_cons, List.nodup_cons] at hN
    rcases List.mem_cons.mp h with h | h
    · injection h with h1 h2
      subst h1
      rw [List.countP_cons]
      have h0 : List.countP (fun p => decide (p.1 = sid)) rest = 0 :=
        countP_fst_eq_zero hN.1
      simp [h0]
    · rw [List.countP_cons]
      have hk : ¬(k = sid) := by
        intro hk
        subst hk
        exact hN.1 (List.mem_map.mpr ⟨(k, sh), h, rfl⟩)
      simp [hk, ih hN.2 h]

theorem lineOK_not_orphanTag {g : HGraph} {l : NarLine} (h : LineOK g l) :
    isOrphanTag l = false := by
  cases l with
  | discharge k t => rfl
  | noDischarge s t => rfl
  | orphanHeader t => exact h.elim
  | orphanEntry s t => exact h.elim
  | blank => exact h.elim

theorem lineOK_not_orphanEntry {g : HGraph} {l : NarLine} (h : LineOK g l)
    (sid : String) : isOrphanEntryFor sid l = false := by
  cases l with
  | discharge k t => rfl
  | noDischarge s t => rfl
  | orphanHeader t => exact h.elim
  | orphanEntry s t => exact h.elim
  | blank => exact h.elim

theorem mem_orphanShapes {g : HGraph} {p : String × Shape} :
    p ∈ orphanShapes g ↔
      p ∈ g ∧ p.2.incoming = [] ∧ p.2.outgoing = [] ∧ p.2.hydro_type ≠ "Comment/Note" := by
  unfold orphanShapes
  rw [List.mem_filter]
  simp [List.isEmpty_iff, and_assoc]

theorem orphanShapes_keys_nodup {g : HGraph} (hN : (g.map Prod.fst).Nodup) :
    ((orphanShapes g).map Prod.fst).Nodup :=
  hN.sublist ((List.filter_sublist g).map Prod.fst)

theorem orphanShapes_nil_iff {g : HGraph} :
    orphanShapes g = [] ↔
      ∀ p ∈ g, ¬(p.2.incoming = [] ∧ p.2.outgoing = [] ∧ p.2.hydro_type ≠ "Comment/Note") := by
  unfold orphanShapes
  rw [List.filter_eq_nil_iff]
  simp [List.isEmpty_iff]

/-- C6: the line sequence of a completed `narrative_summary` run ends with
the orphan block; the lines before it are never orphan-block lines; the
block is empty exactly when no vertex has both edge lists empty and a
non-Comment kind; when present it is the header, one entry per orphan,
then a blank line; and (for a well-formed dict, distinct keys) each orphan
vertex owns exactly one entry in the whole output while every other vertex
owns none. -/
theorem C6_orphan_block (g : HGraph) (fuel : Nat) (st : NarState)
    (hN : (g.map Prod.fst).Nodup) (h : narrativeSummary g fuel = some st) :
    (∃ pre, st.lines = pre ++ orphanBlock g ∧ ∀ l ∈ pre, isOrphanTag l = false) ∧
    (orphanBlock g = [] ↔
      ∀ p ∈ g, ¬(p.2.incoming = [] ∧ p.2.outgoing = [] ∧ p.2.hydro_type ≠ "Comment/Note")) ∧
    (orphanShapes g ≠ [] →
      orphanBlock g =
        NarLine.orphanHeader "The following shapes are not connected to any flow path:" ::
          ((orphanShapes g).map (fun p =>
            NarLine.orphanEntry p.1 ("  - " ++ p.2.hydro_type ++ " " ++ labelOrId p.2 p.1)) ++
           [NarLine.blank])) ∧
    (∀ sid sh, lookupShape g sid = some sh →
      st.lines.countP (isOrphanEntryFor sid) =
        if sh.incoming = [] ∧ sh.outgoing = [] ∧ sh.hydro_type ≠ "Comment/Note" then 1 else 0) := by
  obtain ⟨st2, ⟨hcnt, hok⟩, rfl⟩ := narrativeSummary_trav g fuel st h
  have hpre0 : ∀ sid, st2.lines.countP (isOrphanEntryFor sid) = 0 := by
    intro sid
    apply List.countP_eq_zero.mpr
    intro l hl
    simp [lineOK_not_orphanEntry (hok l hl) sid]
  refine ⟨⟨st2.lines, rfl, fun l hl => lineOK_not_orphanTag (hok l hl)⟩, ?_, ?_, ?_⟩
  · rw [← orphanShapes_nil_iff]
    unfold orphanBlock
    by_cases he : orphanShapes g = []
    · simp [he]
    · simp [he]
  · intro he
    unfold orphanBlock
    rw [if_neg he]
    exact List.cons_append _ _ _
  · intro sid sh hsid
    show (st2.lines ++ orphanBlock g).countP (isOrphanEntryFor sid) =
      if sh.incoming = [] ∧ sh.outgoing = [] ∧ sh.hydro_type ≠ "Comment/Note" then 1 else 0
    rw [List.countP_append, hpre0 sid, Nat.zero_add]
    by_cases he : orphanShapes g = []
    · have hnp : ¬(sh.incoming = [] ∧ sh.outgoing = [] ∧ sh.hydro_type ≠ "Comment/Note") := by
        intro hp
        have hmem : (sid, sh) ∈ orphanShapes g :=
          mem_orphanShapes.mpr ⟨lookupShape_mem hsid, hp⟩
        rw [he] at hmem
        simp at hmem
      unfold orphanBlock
      rw [if_pos he, if_neg hnp]
      rfl
    · unfold orphanBlock
      rw [if_neg he, List.cons_append, List.countP_cons, List.countP_append]
      have hhd : isOrphanEntryFor sid
          (NarLine.orphanHeader "The following shapes are not connected to any flow path:") = false := rfl
      have hbl : List.countP (isOrphanEntryFor sid) [NarLine.blank] = 0 := rfl
      rw [hhd, hbl]
      simp only [Bool.false_eq_true, if_false, Nat.add_zero]
      have hmap : ((orphanShapes g).map (fun p =>
          NarLine.orphanEntry p.1 ("  - " ++ p.2.hydro_type ++ " " ++ labelOrId p.2 p.1))).countP
            (isOrphanEntryFor sid) =
          (orphanShapes g).countP (fun p => decide (p.1 = sid)) := by
        rw [List.countP_map]
        rfl
      rw [hmap]
      by_cases hp : sh.incoming = [] ∧ sh.outgoing = [] ∧ sh.hydro_type ≠ "Comment/Note"
      · have hmem : (sid, sh) ∈ orphanShapes g :=
          mem_orphanShapes.mpr ⟨lookupShape_mem hsid, hp⟩
        rw [countP_fst_eq_one (orphanShapes_keys_nodup hN) hmem, if_pos hp]
      · have hnot : sid ∉ (orphanShapes g).map Prod.fst := by
          intro hm
          obtain ⟨q, hq, hq1⟩ := List.mem_map.mp hm
          obtain ⟨hqg, hqp⟩ := mem_orphanShapes.mp hq
          have : lookupShape g sid = some q.2 := by
            have hq' : (sid, q.2) ∈ g := by
              rw [← hq1]
              simpa using hqg
            exact mem_lookupShape hN hq'
          rw [hsid] at this
          injection this with this
          subst this
          exact hp hqp
        rw [countP_fst_eq_zero hnot, if_neg hp]

/-- A single disconnected vertex whose label is empty. -/
def shNoLabel : Shape := ⟨"", "Node", [], []⟩

/-- The one-vertex graph with an empty label. -/
def gNoLabel : HGraph := [("X1", shNoLabel)]

/-- The final narrative state on `gNoLabel`. -/
def stNoLabel : NarState :=
  ⟨[], ["X1"],
   [NarLine.noDischarge "X1" "Node  does not discharge to any recognized element.",
    NarLine.orphanHeader "The following shapes are not connected to any flow path:",
    NarLine.orphanEntry "X1" "  - Node X1",
    NarLine.blank]⟩

/-- Witness for C6: on the one-orphan graph, the orphan vertex owns
exactly one entry line. -/
theorem C6_orphan_block_witness :
    stNoLabel.lines.countP (isOrphanEntryFor "X1") =
      (if shNoLabel.incoming = [] ∧ shNoLabel.outgoing = [] ∧
          shNoLabel.hydro_type ≠ "Comment/Note" then 1 else 0) :=
  (C6_orphan_block gNoLabel 10 stNoLabel (by decide) (by decide)).2.2.2
    "X1" shNoLabel (by decide)

/-- A Comment vertex with an outgoing edge to a reach. -/
def shCommentC : Shape := ⟨"note1", "Comment/Note", [], [⟨"r", "Surface"⟩]⟩

/-- The graph pairing a Comment vertex with a reach. -/
def gComment : HGraph :=
  [("c", shCommentC), ("r", ⟨"5", "RCHRES", [⟨"c", "Surface"⟩], []⟩)]

/-- The final narrative state on `gComment`. -/
def stComment : NarState :=
  ⟨[("c", "r", "Surface")], ["c", "r"],
   [NarLine.discharge ("c", "r", "Surface")
      "Comment/Note note1 discharges (Surface) to RCHRES 5.",
    NarLine.noDischarge "r"
      "RCHRES 5 does not discharge to any recognized element."]⟩

/-- C7 (amended): Comment vertices are excluded from the zero-indegree
root list, from the orphan pass, from the does-not-discharge sentences
and from both network-block producing steps, while remaining in the dict;
but they are not excluded from discharge sentences: the unvisited sweep
still processes them, so a Comment vertex with an edge appears in a
discharge sentence (see the counterexample). -/
theorem C7_comment_exclusion (g : HGraph) (fuel : Nat) (st : NarState)
    (h : narrativeSummary g fuel = some st) :
    (∀ sid ∈ startShapes g, ∃ sh, (sid, sh) ∈ g ∧
      sh.hydro_type ≠ "Comment/Note" ∧ sh.incoming = []) ∧
    (∀ p ∈ orphanShapes g, p.2.hydro_type ≠ "Comment/Note") ∧
    (∀ sid txt, NarLine.noDischarge sid txt ∈ st.lines →
      ∃ sh, lookupShape g sid = some sh ∧ sh.hydro_type ≠ "Comment/Note") ∧
    (∀ (m : AreaMap) (stg : Groups) (p : String × Shape),
      p.2.hydro_type = "Comment/Note" → step1Body g m stg p = stg ∧ step2Body g stg p = stg) := by
  obtain ⟨st2, ⟨hcnt, hok⟩, rfl⟩ := narrativeSummary_trav g fuel st h
  refine ⟨?_, ?_, ?_, ?_⟩
  · intro sid hsid
    obtain ⟨p, hp, rfl⟩ := List.mem_map.mp hsid
    obtain ⟨hpg, hpred⟩ := List.mem_filter.mp hp
    simp only [Bool.and_eq_true, bne_iff_ne, List.isEmpty_iff] at hpred
    exact ⟨p.2, hpg, hpred.1, hpred.2⟩
  · intro p hp
    exact (mem_orphanShapes.mp hp).2.2.2
  · intro sid txt hmem
    rcases List.mem_append.mp hmem with hmem | hmem
    · obtain ⟨sh, h1, _, h3, _⟩ := hok _ hmem
      exact ⟨sh, h1, h3⟩
    · exfalso
      unfold orphanBlock at hmem
      by_cases he : orphanShapes g = []
      · simp [he] at hmem
      · rw [if_neg he] at hmem
        rcases List.mem_cons.mp hmem with hmem | hmem
        · cases hmem
        · rcases List.mem_append.mp hmem with hmem | hmem
          · obtain ⟨q, _, hq⟩ := List.mem_map.mp hmem
            cases hq
          · simp at hmem
  · intro m stg p hp
    constructor
    · simp [step1Body, hp]
    · simp [step2Body, hp]

/-- Witness for C7 at the Comment-vertex graph. -/
theorem C7_comment_exclusion_witness :
    ∃ sh, lookupShape gComment "r" = some sh ∧ sh.hydro_type ≠ "Comment/Note" :=
  (C7_comment_exclusion gComment 10 stComment (by decide)).2.2.1
    "r" "RCHRES 5 does not discharge to any recognized element." (by decide)

/-- C7 counterexample: a Comment vertex with an edge does appear in a
narrative flow statement — the sweep over unvisited vertices processes it
and emits a discharge sentence naming it as a source. -/
theorem C7_counterexample :
    lookupShape gComment "c" = some shCommentC ∧
    shCommentC.hydro_type = "Comment/Note" ∧
    narrativeSummary gComment 10 = some stComment ∧
    NarLine.discharge ("c", "r", "Surface")
      "Comment/Note note1 discharges (Surface) to RCHRES 5." ∈ stComment.lines := by
  refine ⟨by decide, by decide, by decide, by decide⟩

/-- C9 (amended): discharge sentences display both endpoints through
`labelOrId` (the id replaces an empty label) and orphan entries do the
same; but the does-not-discharge sentence prints the raw label with no id
fallback (`noDischargeText` uses `sh.label` directly), so an empty label
renders as an empty display there (see the counterexample). -/
theorem C9_display_labels (g : HGraph) (fuel : Nat) (st : NarState)
    (h : narrativeSummary g fuel = some st) :
    (∀ k txt, NarLine.discharge k txt ∈ st.lines →
      ∃ src tgt, lookupShape g k.1 = some src ∧ lookupShape g k.2.1 = some tgt ∧
        txt = dischargeText src k.1 tgt k.2.1 k.2.2) ∧
    (∀ sid txt, NarLine.orphanEntry sid txt ∈ st.lines →
      ∃ sh, (sid, sh) ∈ orphanShapes g ∧
        txt = "  - " ++ sh.hydro_type ++ " " ++ labelOrId sh sid) ∧
    (∀ sid txt, NarLine.noDischarge sid txt ∈ st.lines →
      ∃ sh, lookupShape g sid = some sh ∧ txt = noDischargeText sh) := by
  obtain ⟨st2, ⟨hcnt, hok⟩, rfl⟩ := narrativeSummary_trav g fuel st h
  refine ⟨?_, ?_, ?_⟩
  · intro k txt hmem
    rcases List.mem_append.mp hmem with hmem | hmem
    · exact hok _ hmem
    · exfalso
      unfold orphanBlock at hmem
      by_cases he : orphanShapes g = []
      · simp [he] at hmem
      · rw [if_neg he] at hmem
        rcases List.mem_cons.mp hmem with hmem | hmem
        · cases hmem
        · rcases List.mem_append.mp hmem with hmem | hmem
          · obtain ⟨q, _, hq⟩ := List.mem_map.mp hmem
            cases hq
          · simp at hmem
  · intro sid txt hmem
    rcases List.mem_append.mp hmem with hmem | hmem
    · exact absurd (hok _ hmem) (by intro hh; exact hh)
    · unfold orphanBlock at hmem
      by_cases he : orphanShapes g = []
      · simp [he] at hmem
      · rw [if_neg he] at hmem
        rcases List.mem_cons.mp hmem with hmem | hmem
        · cases hmem
        · rcases List.mem_append.mp hmem with hmem | hmem
          · obtain ⟨q, hq, hqe⟩ := List.mem_map.mp hmem
            injection hqe with h1 h2
            subst h1
            exact ⟨q.2, by simpa using hq, h2.symm⟩
          · simp at hmem
  · intro sid txt hmem
    rcases List.mem_append.mp hmem with hmem | hmem
    · obtain ⟨sh, h1, _, _, h4⟩ := hok _ hmem
      exact ⟨sh, h1, h4⟩
    · exfalso
      unfold orphanBlock at hmem
      by_cases he : orphanShapes g = []
      · simp [he] at hmem
      · rw [if_neg he] at hmem
        rcases List.mem_cons.mp hmem with hmem | hmem
        · cases hmem
        · rcases List.mem_append.mp hmem with hmem | hmem
          · obtain ⟨q, _, hq⟩ := List.mem_map.mp hmem
            cases hq
          · simp at hmem

/-- Witness for C9 at the empty-label graph. -/
theorem C9_display_labels_witness :
    ∃ sh, lookupShape gNoLabel "X1" = some sh ∧
      "Node  does not discharge to any recognized element." = noDischargeText sh :=
  (C9_display_labels gNoLabel 10 stNoLabel (by decide)).2.2
    "X1" "Node  does not discharge to any recognized element." (by decide)

/-- C9 counterexample: for the empty-label vertex `X1`, the
does-not-discharge sentence does not fall back to the id — it renders the
empty label (`"Node  does not ..."`, not `"Node X1 does not ..."`) even
though the orphan entry in the very same output does use the id. -/
theorem C9_counterexample :
    lookupShape gNoLabel "X1" = some shNoLabel ∧
    shNoLabel.label = "" ∧
    narrativeSummary gNoLabel 10 = some stNoLabel ∧
    NarLine.noDischarge "X1"
      "Node  does not discharge to any recognized element." ∈ stNoLabel.lines ∧
    "Node  does not discharge to any recognized element." ≠
      "Node X1 does not discharge to any recognized element." ∧
    NarLine.orphanEntry "X1" "  - Node X1" ∈ stNoLabel.lines := by
  refine ⟨by decide, by decide, by decide, by decide, by decide, by decide⟩

theorem groupsFind_concat (gs : Groups) (k : String) (v : List String) (q : String) :
    groupsFind (gs ++ [(k, v)]) q =
      match groupsFind gs q with
      | some x => some x
      | none => if k = q then some v else none := by
  induction gs with
  | nil => simp [groupsFind]
  | cons p rest ih =>
    obtain ⟨pk, pv⟩ := p
    by_cases hpk : pk = q
    · simp [groupsFind, hpk]
    · simp only [List.cons_append, groupsFind, if_neg hpk]
      exact ih

theorem groupsFind_update (gs : Groups) (k : String) (line : String) (q : String) :
    groupsFind (gs.map (fun p => if p.1 = k then (p.1, p.2 ++ [line]) else p)) q =
      if q = k then (groupsFind gs q).map (fun v => v ++ [line]) else groupsFind gs q := by
  induction gs with
  | nil => by_cases h : q = k <;> simp [groupsFind, h]
  | cons p rest ih =>
    obtain ⟨pk, pv⟩ := p
    by_cases hpk : pk = k
    · subst hpk
      by_cases hq : pk = q
      · subst hq
        simp [groupsFind]
      · simp only [List.map_cons, if_pos rfl, groupsFind, if_neg hq]
        rw [ih]
        have hqk : ¬(q = pk) := fun hh => hq hh.symm
        simp [hqk, hq]
    · by_cases hq : pk = q
      · subst hq
        simp [groupsFind, hpk]
      · simp only [List.map_cons, if_neg hpk, groupsFind, if_neg hq]
        exact ih

theorem groupsFind_appendGroup (gs : Groups) (k : String) (line : String) (q : String) :
    groupsFind (appendGroup gs k line) q =
      if q = k then some ((groupsFind gs k).getD [] ++ [line]) else groupsFind gs q := by
  unfold appendGroup
  cases h : groupsFind gs k with
  | some v =>
    rw [if_pos (by simp [h])]
    rw [groupsFind_update]
    by_cases hq : q = k
    · subst hq
      simp [h]
    · simp [hq]
  | none =>
    rw [if_neg (by simp [h])]
    rw [groupsFind_concat]
    by_cases hq : q = k
    · subst hq
      simp [h]
    · cases hg : groupsFind gs q with
      | some x => simp [hq]
      | none =>
        have : ¬(k = q) := fun hh => hq hh.symm
        simp [hq, this]

theorem groupsFind_ensureGroup (gs : Groups) (k : String) (q : String) :
    groupsFind (ensureGroup gs k) q =
      if q = k then some ((groupsFind gs k).getD []) else groupsFind gs q := by
  unfold ensureGroup
  cases h : groupsFind gs k with
  | some v =>
    rw [if_pos (by simp [h])]
    by_cases hq : q = k
    · subst hq
      simp [h]
    · simp [hq]
  | none =>
    rw [if_neg (by simp [h])]
    rw [groupsFind_concat]
    by_cases hq : q = k
    · subst hq
      simp [h]
    · cases hg : groupsFind gs q with
      | some x => simp [hq]
      | none =>
        have : ¬(k = q) := fun hh => hq hh.symm
        simp [hq, this]

/-- C4: a Subcatchment whose first outgoing edge's target resolves and
whose label owns both a pervious (`PERLND <label>.0`) and an impervious
(`IMPLND <label>.0`) entry in the area mapping contributes exactly two
statement lines — one PERLND, one IMPLND — to the group keyed by the
resolved target reach label, touching no other group; and on the concrete
scenario `A(Subcatchment,"1") → B(Reach,"5")` with areas 50000/25000 the
network block is exactly the PERLND line with area `0.5000000` and the
IMPLND line with area `0.2500000`, both routed to `RCHRES 5` with suffix
`INFLOW`. -/
theorem C4_subcatchment_two_lines (g : HGraph) (m : AreaMap) (stg : Groups)
    (sid : String) (sh : Shape) (e : FlowOut) (rest : List FlowOut) (tgt : Shape)
    (a b : ℚ)
    (hs : sh.hydro_type = "Subcatchment") (houts : sh.outgoing = e :: rest)
    (htgt : lookupShape g e.target = some tgt)
    (ha : amFind m (perlndKey sh.label) = some a)
    (hb : amFind m (implndKey sh.label) = some b) :
    (groupsFind (step1Body g m stg (sid, sh)) tgt.label =
       some ((groupsFind stg tgt.label).getD [] ++
         [perlndLine sh.label tgt.label a, implndLine sh.label tgt.label b]) ∧
     ∀ k, k ≠ tgt.label → groupsFind (step1Body g m stg (sid, sh)) k = groupsFind stg k) ∧
    generate_corrected_network_block gScen mScen 10 =
      some (some
        ["PERLND 1   PWATER PERO      0.5000000      RCHRES 5       INFLOW",
         "IMPLND 1   IWATER SURO      0.2500000      RCHRES 5       INFLOW"]) := by
  have hstep : step1Body g m stg (sid, sh) =
      appendGroup (appendGroup (ensureGroup stg tgt.label) tgt.label
        (perlndLine sh.label tgt.label a)) tgt.label (implndLine sh.label tgt.label b) := by
    simp [step1Body, hs, houts, htgt, ha, hb]
  refine ⟨⟨?_, ?_⟩, by decide⟩
  · rw [hstep, groupsFind_appendGroup, if_pos rfl, groupsFind_appendGroup, if_pos rfl,
      groupsFind_ensureGroup, if_pos rfl]
    simp [List.append_assoc]
  · intro k hk
    rw [hstep, groupsFind_appendGroup, if_neg hk, groupsFind_appendGroup, if_neg hk,
      groupsFind_ensureGroup, if_neg hk]

/-- Witness for C4 at the scenario graph. -/
theorem C4_subcatchment_two_lines_witness :
    (groupsFind (step1Body gScen mScen [] ("a", shapeScA)) shapeScB.label =
       some ((groupsFind ([] : Groups) shapeScB.label).getD [] ++
         [perlndLine shapeScA.label shapeScB.label 50000,
          implndLine shapeScA.label shapeScB.label 25000]) ∧
     ∀ k, k ≠ shapeScB.label →
       groupsFind (step1Body gScen mScen [] ("a", shapeScA)) k = groupsFind ([] : Groups) k) ∧
    generate_corrected_network_block gScen mScen 10 =
      some (some
        ["PERLND 1   PWATER PERO      0.5000000      RCHRES 5       INFLOW",
         "IMPLND 1   IWATER SURO      0.2500000      RCHRES 5       INFLOW"]) :=
  C4_subcatchment_two_lines gScen mScen [] "a" shapeScA ⟨"b", "Surface"⟩ [] shapeScB
    50000 25000 (by decide) (by decide) (by decide) (by decide) (by decide)

theorem halfEvenOfFrac_eq (num : ℤ) (den : ℕ) (hden : 0 < den) :
    halfEvenOfFrac num den = halfEvenRound ((num : ℚ) / (den : ℚ)) := by
  have hdq : (0 : ℚ) < (den : ℚ) := by exact_mod_cast hden
  have hf : ⌊(num : ℚ) / (den : ℚ)⌋ = num / (den : ℤ) :=
    Rat.floor_intCast_div_natCast num den
  have hr : (num : ℚ) / (den : ℚ) - ((num / (den : ℤ) : ℤ) : ℚ) =
      ((num - (num / (den : ℤ)) * (den : ℤ) : ℤ) : ℚ) / (den : ℚ) := by
    field_simp
    ring
  have h1 : ((num : ℚ) / (den : ℚ) - ((num / (den : ℤ) : ℤ) : ℚ) < 1 / 2) ↔
      (2 * (num - (num / (den : ℤ)) * (den : ℤ)) < (den : ℤ)) := by
    rw [hr, div_lt_div_iff₀ hdq (by norm_num : (0 : ℚ) < 2)]
    constructor
    · intro h
      have h' : ((2 * (num - num / (den : ℤ) * (den : ℤ)) : ℤ) : ℚ) < ((den : ℤ) : ℚ) := by
        push_cast
        push_cast at h
        linarith
      exact_mod_cast h'
    · intro h
      have h' : ((2 * (num - num / (den : ℤ) * (den : ℤ)) : ℤ) : ℚ) < ((den : ℤ) : ℚ) := by
        exact_mod_cast h
      push_cast at h' ⊢
      linarith
  have h2 : (1 / 2 < (num : ℚ) / (den : ℚ) - ((num / (den : ℤ) : ℤ) : ℚ)) ↔
      ((den : ℤ) < 2 * (num - (num / (den : ℤ)) * (den : ℤ))) := by
    rw [hr, div_lt_div_iff₀ (by norm_num : (0 : ℚ) < 2) hdq]
    constructor
    · intro h
      have h' : ((den : ℤ) : ℚ) < ((2 * (num - num / (den : ℤ) * (den : ℤ)) : ℤ) : ℚ) := by
        push_cast
        push_cast at h
        linarith
      exact_mod_cast h'
    · intro h
      have h' : ((den : ℤ) : ℚ) < ((2 * (num - num / (den : ℤ) * (den : ℤ)) : ℤ) : ℚ) := by
        exact_mod_cast h
      push_cast at h' ⊢
      linarith
  simp only [halfEvenOfFrac, halfEvenRound, hf]
  by_cases hc1 : 2 * (num - num / (den : ℤ) * (den : ℤ)) < (den : ℤ)
  · rw [if_pos hc1, if_pos (h1.mpr hc1)]
  · rw [if_neg hc1, if_neg (fun hh => hc1 (h1.mp hh))]
    by_cases hc2 : (den : ℤ) < 2 * (num - num / (den : ℤ) * (den : ℤ))
    · rw [if_pos hc2, if_pos (h2.mpr hc2)]
    · rw [if_neg hc2, if_neg (fun hh => hc2 (h2.mp hh))]

theorem areaRounded7_eq (a : ℚ) :
    areaRounded7 a = halfEvenRound (a / 100000 * 10000000) := by
  unfold areaRounded7
  rw [halfEvenOfFrac_eq _ _ a.den_pos]
  congr 1
  have hden : ((a.den : ℚ)) ≠ 0 := by
    exact_mod_cast a.den_pos.ne'
  conv_rhs => rw [← Rat.num_div_den a]
  push_cast
  field_simp
  ring

theorem floor_roundQ7 (x : ℚ) : ⌊roundQ7 x * 10000000⌋ = halfEvenRound (x * 10000000) := by
  unfold roundQ7
  rw [div_mul_cancel₀ _ (by norm_num : (10000000 : ℚ) ≠ 0)]
  exact Int.floor_intCast _

/-- The integer rendering of the area field agrees with the rational-level
`round(a / 100000, 7)` formatted to 7 decimal places. -/
theorem areaField_eq (a : ℚ) : areaField a = formatFixed7 (scaledArea a) := by
  unfold areaField formatFixed7 scaledArea
  rw [areaRounded7_eq, floor_roundQ7]

theorem mem_parse_edges_foldl (cells : List RawEdgeCell)
    (x : String × String × String) :
    ∀ acc, x ∈ cells.foldl
        (fun acc cell =>
          match parseEdgeCell cell with
          | some e => acc ++ [e]
          | none => acc) acc ↔
      x ∈ acc ∨ ∃ cell ∈ cells, parseEdgeCell cell = some x := by
  induction cells with
  | nil => intro acc; simp [List.foldl]
  | cons c rest ih =>
    intro acc
    rw [List.foldl_cons]
    cases hc : parseEdgeCell c with
    | none =>
      rw [ih]
      constructor
      · rintro (h | ⟨cell, hm, he⟩)
        · exact Or.inl h
        · exact Or.inr ⟨cell, List.mem_cons_of_mem _ hm, he⟩
      · rintro (h | ⟨cell, hm, he⟩)
        · exact Or.inl h
        · rcases List.mem_cons.mp hm with rfl | hm
          · rw [hc] at he; cases he
          · exact Or.inr ⟨cell, hm, he⟩
    | some e =>
      rw [ih]
      constructor
      · rintro (h | ⟨cell, hm, he⟩)
        · rcases List.mem_append.mp h with h | h
          · exact Or.inl h
          · simp at h
            subst h
            exact Or.inr ⟨c, List.mem_cons_self _ _, hc⟩
        · exact Or.inr ⟨cell, List.mem_cons_of_mem _ hm, he⟩
      · rintro (h | ⟨cell, hm, he⟩)
        · exact Or.inl (List.mem_append.mpr (Or.inl h))
        · rcases List.mem_cons.mp hm with rfl | hm
          · rw [hc] at he
            injection he with he
            subst he
            exact Or.inl (List.mem_append.mpr (Or.inr (by simp)))
          · exact Or.inr ⟨cell, hm, he⟩

theorem mem_parse_edges {cells : List RawEdgeCell} {x : String × String × String} :
    x ∈ parse_edges cells ↔ ∃ cell ∈ cells, parseEdgeCell cell = some x := by
  unfold parse_edges
  rw [mem_parse_edges_foldl]
  simp

theorem lookupShape_updateShape (g : HGraph) (sid : String) (f : Shape → Shape) (q : String) :
    lookupShape (updateShape g sid f) q =
      if q = sid then (lookupShape g q).map f else lookupShape g q := by
  induction g with
  | nil => by_cases h : q = sid <;> simp [updateShape, lookupShape, h]
  | cons p rest ih =>
    obtain ⟨pk, pv⟩ := p
    by_cases hpk : pk = sid
    · subst hpk
      by_cases hq : pk = q
      · subst hq
        simp [updateShape, lookupShape]
      · simp only [updateShape, List.map_cons, if_pos rfl, lookupShape, if_neg hq]
        rw [show List.map (fun p => if p.1 = pk then (p.1, f p.2) else p) rest =
          updateShape rest pk f from rfl, ih]
        have hqk : ¬(q = pk) := fun hh => hq hh.symm
        simp [hqk, hq]
    · by_cases hq : pk = q
      · subst hq
        simp [updateShape, lookupShape, hpk]
      · simp only [updateShape, List.map_cons, if_neg hpk, lookupShape, if_neg hq]
        exact ih

/-- C10: a connector whose trimmed source and target are non-empty is
accepted by `parse_edges` even with the style attribute entirely absent
(the style then normalizes to `""`); `build_graph` then materializes the
edge, and the flow kind is `Groundwater` exactly when the style carries
the `dashed=1` marker — so an absent or non-dashed style yields `Surface`
and a missing style is never an error. -/
theorem C10_missing_style (cells : List RawEdgeCell) (cell : RawEdgeCell)
    (hmem : cell ∈ cells)
    (hsrc : pyStrip (cell.source.getD "") ≠ "")
    (htgt : pyStrip (cell.target.getD "") ≠ "") :
    (pyStrip (cell.source.getD ""), pyStrip (cell.target.getD ""),
      edgeStyleOf cell.style) ∈ parse_edges cells ∧
    (cell.style = none → edgeStyleOf cell.style = "") ∧
    (∀ style, flowTypeOf style = if pyContains style "dashed=1" then "Groundwater" else "Surface") ∧
    flowTypeOf "" = "Surface" ∧
    (∀ (g : HGraph) (src tgt style : String) (sh : Shape),
      lookupShape g src = some sh → (lookupShape g tgt).isSome = true →
      ∃ sh', lookupShape (addEdge g (src, tgt, style)) src = some sh' ∧
        sh'.outgoing = sh.outgoing ++ [⟨tgt, flowTypeOf style⟩]) := by
  refine ⟨?_, ?_, fun style => rfl, rfl, ?_⟩
  · apply mem_parse_edges.mpr
    refine ⟨cell, hmem, ?_⟩
    unfold parseEdgeCell
    rw [if_pos ⟨hsrc, htgt⟩]
  · intro hs
    rw [hs]
    rfl
  · intro g src tgt style sh hs ht
    unfold addEdge
    dsimp only
    rw [if_pos ⟨by rw [hs]; rfl, ht⟩]
    rw [lookupShape_updateShape]
    by_cases hst : src = tgt
    · rw [if_pos hst, lookupShape_updateShape, if_pos rfl, hs]
      exact ⟨_, rfl, rfl⟩
    · rw [if_neg hst, lookupShape_updateShape, if_pos rfl, hs]
      exact ⟨_, rfl, rfl⟩

/-- A connector cell with no style attribute and padded endpoint ids. -/
def cellW : RawEdgeCell := ⟨some " s1 ", some "t1", none⟩

/-- Witness for C10 at a concrete connector with an absent style. -/
theorem C10_missing_style_witness :
    (pyStrip (cellW.source.getD ""), pyStrip (cellW.target.getD ""),
      edgeStyleOf cellW.style) ∈ parse_edges [cellW] ∧
    (cellW.style = none → edgeStyleOf cellW.style = "") ∧
    (∀ style, flowTypeOf style = if pyContains style "dashed=1" then "Groundwater" else "Surface") ∧
    flowTypeOf "" = "Surface" ∧
    (∀ (g : HGraph) (src tgt style : String) (sh : Shape),
      lookupShape g src = some sh → (lookupShape g tgt).isSome = true →
      ∃ sh', lookupShape (addEdge g (src, tgt, style)) src = some sh' ∧
        sh'.outgoing = sh.outgoing ++ [⟨tgt, flowTypeOf style⟩]) :=
  C10_missing_style [cellW] cellW (by decide) (by decide) (by decide)

/-- The operation (`"<kind> <id>"`) each valid non-blank input line of the
Operation Sequence Deriver contributes. -/
def validOps (nb : List String) : List String :=
  nb.filterMap (fun line =>
    if pyStrip line = "" then none
    else if (pySplit line).length < 2 then none
    else some (opOf line))

/-- First occurrences of a list's elements, given an already-seen set. -/
def firstSeenAux (seen : List String) : List String → List String
  | [] => []
  | x :: xs => if x ∈ seen then firstSeenAux seen xs else x :: firstSeenAux (x :: seen) xs

/-- The distinct elements of a list in first-seen order. -/
def firstSeen (l : List String) : List String := firstSeenAux [] l

/-- The referenced-target update of the deriver for one line: lines whose
first token is `RCHRES` with at least 8 tokens contribute
`"RCHRES " ++ parts[-2]` to the referenced set. -/
def refsStep (acc : List String) (line : String) : List String :=
  if pyStrip line = "" then acc
  else if (pySplit line).length < 2 then acc
  else if ((pySplit line).get? 0).getD "" = "RCHRES" ∧ 8 ≤ (pySplit line).length then
    (if refTargetOf line ∈ acc then acc else acc ++ [refTargetOf line])
  else acc

/-- All `RCHRES` destinations referenced by the input lines, first-seen
order, deduplicated. -/
def rchresRefs (nb : List String) : List String := nb.foldl refsStep []

/-- Proposition that `t` is the destination reference contributed by `line`. -/
def RefQualif (line t : String) : Prop :=
  pyStrip line ≠ "" ∧ ¬((pySplit line).length < 2) ∧
  ((pySplit line).get? 0).getD "" = "RCHRES" ∧ 8 ≤ (pySplit line).length ∧
  t = refTargetOf line

theorem mem_firstSeenAux : ∀ (l : List String) (seen : List String) (y : String),
    y ∈ firstSeenAux seen l ↔ y ∉ seen ∧ y ∈ l := by
  intro l
  induction l with
  | nil => intro seen y; simp [firstSeenAux]
  | cons x xs ih =>
    intro seen y
    unfold firstSeenAux
    by_cases hx : x ∈ seen
    · rw [if_pos hx, ih]
      constructor
      · rintro ⟨h1, h2⟩
        exact ⟨h1, List.mem_cons_of_mem _ h2⟩
      · rintro ⟨h1, h2⟩
        rcases List.mem_cons.mp h2 with rfl | h2
        · exact absurd hx h1
        · exact ⟨h1, h2⟩
    · rw [if_neg hx]
      constructor
      · intro h
        rcases List.mem_cons.mp h with rfl | h
        · exact ⟨hx, List.mem_cons_self _ _⟩
        · obtain ⟨h1, h2⟩ := (ih _ _).mp h
          exact ⟨fun hy => h1 (List.mem_cons_of_mem _ hy), List.mem_cons_of_mem _ h2⟩
      · rintro ⟨h1, h2⟩
        rcases List.mem_cons.mp h2 with rfl | h2
        · exact List.mem_cons_self _ _
        · by_cases hyx : y = x
          · subst hyx
            exact List.mem_cons_self _ _
          · exact List.mem_cons_of_mem _
              ((ih _ _).mpr ⟨fun hy => (List.mem_cons.mp hy).elim hyx h1, h2⟩)

theorem nodup_firstSeenAux : ∀ (l : List String) (seen : List String),
    (firstSeenAux seen l).Nodup := by
  intro l
  induction l with
  | nil => intro seen; simp [firstSeenAux]
  | cons x xs ih =>
    intro seen
    unfold firstSeenAux
    by_cases hx : x ∈ seen
    · rw [if_pos hx]
      exact ih _
    · rw [if_neg hx]
      refine List.nodup_cons.mpr ⟨?_, ih _⟩
      intro hmem
      exact ((mem_firstSeenAux _ _ _).mp hmem).1 (List.mem_cons_self _ _)

theorem mem_firstSeen (l : List String) (y : String) : y ∈ firstSeen l ↔ y ∈ l := by
  unfold firstSeen
  rw [mem_firstSeenAux]
  simp

theorem nodup_firstSeen (l : List String) : (firstSeen l).Nodup := nodup_firstSeenAux l []

theorem firstSeenAux_append_one : ∀ (l : List String) (seen : List String) (x : String),
    firstSeenAux seen (l ++ [x]) =
      firstSeenAux seen l ++ (if x ∈ seen ∨ x ∈ l then [] else [x]) := by
  intro l
  induction l with
  | nil =>
    intro seen x
    by_cases hx : x ∈ seen <;> simp [firstSeenAux, hx]
  | cons z zs ih =>
    intro seen x
    simp only [List.cons_append]
    unfold firstSeenAux
    by_cases hz : z ∈ seen
    · rw [if_pos hz, if_pos hz, ih]
      have hiff : (x ∈ seen ∨ x ∈ zs) ↔ (x ∈ seen ∨ x ∈ z :: zs) := by
        constructor
        · rintro (h | h)
          · exact Or.inl h
          · exact Or.inr (List.mem_cons_of_mem _ h)
        · rintro (h | h)
          · exact Or.inl h
          · rcases List.mem_cons.mp h with rfl | h
            · exact Or.inl hz
            · exact Or.inr h
      rw [if_congr hiff rfl rfl]
    · rw [if_neg hz, if_neg hz, ih, List.cons_append]
      have hiff : (x ∈ z :: seen ∨ x ∈ zs) ↔ (x ∈ seen ∨ x ∈ z :: zs) := by
        simp [List.mem_cons]
        tauto
      rw [if_congr hiff rfl rfl]

theorem firstSeen_append_one (l : List String) (x : String) :
    firstSeen (l ++ [x]) = firstSeen l ++ (if x ∈ l then [] else [x]) := by
  unfold firstSeen
  rw [firstSeenAux_append_one]
  simp

theorem insertBy_perm (le : α → α → Bool) (x : α) :
    ∀ l : List α, List.Perm (insertBy le x l) (x :: l) := by
  intro l
  induction l with
  | nil => exact List.Perm.refl _
  | cons y ys ih =>
    unfold insertBy
    cases hxy : le x y
    · rw [if_neg (by simp [hxy])]
      exact (List.Perm.cons y ih).trans (List.Perm.swap x y ys)
    · rw [if_pos (by simp [hxy])]

theorem sortBy_perm (le : α → α → Bool) : ∀ l : List α, List.Perm (sortBy le l) l := by
  intro l
  induction l with
  | nil => exact List.Perm.refl _
  | cons x xs ih =>
    unfold sortBy
    exact (insertBy_perm le x (sortBy le xs)).trans (List.Perm.cons x ih)

theorem filter_dropTrailingBlanks (l : List String) :
    (dropTrailingBlanks l).filter (fun s => decide (s ≠ "")) =
      l.filter (fun s => decide (s ≠ "")) := by
  unfold dropTrailingBlanks
  have key : ∀ m : List String,
      (m.dropWhile (fun s => decide (s = ""))).filter (fun s => decide (s ≠ "")) =
        m.filter (fun s => decide (s ≠ "")) := by
    intro m
    induction m with
    | nil => rfl
    | cons x xs ih =>
      by_cases hx : x = ""
      · subst hx
        simp only [List.dropWhile, List.filter]
        simpa using ih
      · simp [List.dropWhile, List.filter, hx]
  rw [List.filter_reverse, key, ← List.filter_reverse, List.reverse_reverse]

theorem mem_op_shape {nb : List String} {op : String} (h : op ∈ validOps nb) :
    ∃ a b : String, op = a ++ " " ++ b := by
  obtain ⟨line, _, hline⟩ := List.mem_filterMap.mp h
  by_cases h1 : pyStrip line = ""
  · simp [h1] at hline
  · rw [if_neg h1] at hline
    by_cases h2 : (pySplit line).length < 2
    · simp [h2] at hline
    · simp only [if_neg h2, Option.some.injEq] at hline
      exact ⟨_, _, by rw [← hline]; rfl⟩

theorem op_ne_empty {nb : List String} {op : String} (h : op ∈ validOps nb) : op ≠ "" := by
  obtain ⟨a, b, rfl⟩ := mem_op_shape h
  intro hc
  have : (a ++ " " ++ b).data = "".data := by rw [hc]
  rw [String.data_append, String.data_append] at this
  simp at this

theorem mem_refsStep (acc : List String) (line t : String) :
    t ∈ refsStep acc line ↔ t ∈ acc ∨ RefQualif line t := by
  unfold refsStep
  by_cases h1 : pyStrip line = ""
  · simp [h1, RefQualif]
  · rw [if_neg h1]
    by_cases h2 : (pySplit line).length < 2
    · rw [if_pos h2]
      simp [RefQualif, h1, h2]
    · rw [if_neg h2]
      by_cases hq : ((pySplit line).get? 0).getD "" = "RCHRES" ∧ 8 ≤ (pySplit line).length
      · rw [if_pos hq]
        by_cases ht : refTargetOf line ∈ acc
        · rw [if_pos ht]
          constructor
          · exact Or.inl
          · rintro (h | ⟨_, _, _, _, rfl⟩)
            · exact h
            · exact ht
        · rw [if_neg ht, List.mem_append, List.mem_singleton]
          constructor
          · rintro (h | h)
            · exact Or.inl h
            · exact Or.inr ⟨h1, h2, hq.1, hq.2, h⟩
          · rintro (h | ⟨_, _, _, _, h⟩)
            · exact Or.inl h
            · exact Or.inr h
      · rw [if_neg hq]
        constructor
        · exact Or.inl
        · rintro (h | ⟨_, hh2, hh3, hh4, _⟩)
          · exact h
          · exact absurd ⟨hh3, hh4⟩ hq

theorem refsStep_nodup {acc : List String} (h : acc.Nodup) (line : String) :
    (refsStep acc line).Nodup := by
  unfold refsStep
  by_cases h1 : pyStrip line = ""
  · simpa [h1]
  · rw [if_neg h1]
    by_cases h2 : (pySplit line).length < 2
    · rwa [if_pos h2]
    · rw [if_neg h2]
      by_cases hq : ((pySplit line).get? 0).getD "" = "RCHRES" ∧ 8 ≤ (pySplit line).length
      · rw [if_pos hq]
        by_cases ht : refTargetOf line ∈ acc
        · rwa [if_pos ht]
        · rw [if_neg ht]
          refine List.Nodup.append h (List.nodup_singleton _) ?_
          intro a ha hb
          rw [List.mem_singleton] at hb
          subst hb
          exact ht ha
      · rwa [if_neg hq]

theorem nodup_refsFold : ∀ (nb : List String) (acc : List String),
    acc.Nodup → (nb.foldl refsStep acc).Nodup := by
  intro nb
  induction nb with
  | nil => exact fun acc h => h
  | cons line rest ih =>
    intro acc h
    rw [List.foldl_cons]
    exact ih _ (refsStep_nodup h line)

theorem mem_refsFold : ∀ (nb : List String) (acc : List String) (t : String),
    t ∈ nb.foldl refsStep acc ↔ t ∈ acc ∨ ∃ line ∈ nb, RefQualif line t := by
  intro nb
  induction nb with
  | nil => intro acc t; simp
  | cons line rest ih =>
    intro acc t
    rw [List.foldl_cons, ih, mem_refsStep]
    simp only [List.mem_cons]
    constructor
    · rintro ((h | h) | ⟨l, hl, hq⟩)
      · exact Or.inl h
      · exact Or.inr ⟨line, Or.inl rfl, h⟩
      · exact Or.inr ⟨l, Or.inr hl, hq⟩
    · rintro (h | ⟨l, (rfl | hl), hq⟩)
      · exact Or.inl (Or.inl h)
      · exact Or.inl (Or.inr hq)
      · exact Or.inr ⟨l, hl, hq⟩

theorem nodup_rchresRefs (nb : List String) : (rchresRefs nb).Nodup :=
  nodup_refsFold nb [] (List.nodup_nil)

theorem mem_rchresRefs {nb : List String} {t : String} :
    t ∈ rchresRefs nb ↔ ∃ line ∈ nb, RefQualif line t := by
  unfold rchresRefs
  rw [mem_refsFold]
  simp

theorem refs_ne_empty {nb : List String} {t : String} (h : t ∈ rchresRefs nb) : t ≠ "" := by
  obtain ⟨line, _, hq⟩ := mem_rchresRefs.mp h
  obtain ⟨_, _, _, _, rfl⟩ := hq
  intro hc
  have : (refTargetOf line).data = "".data := by rw [hc]
  unfold refTargetOf at this
  rw [String.data_append] at this
  simp at this

/-- The deriver's loop invariant after consuming a prefix of the lines:
the processed set is the first-seen list of the valid operations, the
non-blank emitted lines (flushed or pending) are exactly that list, and
the referenced set is the accumulated RCHRES destinations. -/
def OpInv (consumed : List String) (st : OpState) : Prop :=
  st.processed = firstSeen (validOps consumed) ∧
  (st.seq ++ st.cur).filter (fun s => decide (s ≠ "")) = st.processed ∧
  st.referenced = rchresRefs consumed

theorem flushGroup_fields (st : OpState) :
    (flushGroup st).processed = st.processed ∧
    (flushGroup st).referenced = st.referenced ∧
    ((flushGroup st).seq ++ (flushGroup st).cur).filter (fun s => decide (s ≠ "")) =
      (st.seq ++ st.cur).filter (fun s => decide (s ≠ "")) := by
  unfold flushGroup
  by_cases h : st.cur ≠ []
  · rw [if_pos h]
    refine ⟨rfl, rfl, ?_⟩
    simp [List.filter_append]
  · rw [if_neg h]
    exact ⟨rfl, rfl, rfl⟩

theorem opProcUpdate_referenced (st : OpState) (op : String) :
    (opProcUpdate st op).referenced = st.referenced := by
  unfold opProcUpdate
  split <;> rfl

theorem opRefsUpdate_fields (st : OpState) (line : String) :
    (opRefsUpdate st line).processed = st.processed ∧
    (opRefsUpdate st line).seq = st.seq ∧
    (opRefsUpdate st line).cur = st.cur := by
  unfold opRefsUpdate
  split
  · split <;> exact ⟨rfl, rfl, rfl⟩
  · exact ⟨rfl, rfl, rfl⟩

theorem opSeqStep_inv {consumed : List String} {st : OpState} (line : String)
    (h : OpInv consumed st) : OpInv (consumed ++ [line]) (opSeqStep st line) := by
  obtain ⟨hp, hs, hr⟩ := h
  have hval : validOps (consumed ++ [line]) = validOps consumed ++ validOps [line] :=
    List.filterMap_append _ _ _
  have hrefs : rchresRefs (consumed ++ [line]) = refsStep (rchresRefs consumed) line := by
    unfold rchresRefs
    rw [List.foldl_append]
    rfl
  unfold opSeqStep
  by_cases h1 : pyStrip line = ""
  · rw [if_pos h1]
    have hval0 : validOps [line] = [] := by simp [validOps, h1]
    have hrefs0 : refsStep (rchresRefs consumed) line = rchresRefs consumed := by
      unfold refsStep
      rw [if_pos h1]
    obtain ⟨hf1, hf2, hf3⟩ := flushGroup_fields st
    refine ⟨?_, ?_, ?_⟩
    · rw [hf1, hp, hval, hval0, List.append_nil]
    · rw [hf3, hs, hf1]
    · rw [hf2, hr, hrefs, hrefs0]
  · rw [if_neg h1]
    by_cases h2 : (pySplit line).length < 2
    · rw [if_pos h2]
      have hval0 : validOps [line] = [] := by simp [validOps, h1, h2]
      have hrefs0 : refsStep (rchresRefs consumed) line = rchresRefs consumed := by
        unfold refsStep
        rw [if_neg h1, if_pos h2]
      exact ⟨by rw [hp, hval, hval0, List.append_nil], hs,
        by rw [hr, hrefs, hrefs0]⟩
    · rw [if_neg h2]
      have hval0 : validOps [line] = [opOf line] := by simp [validOps, h1, h2]
      have hfs : firstSeen (validOps (consumed ++ [line])) =
          firstSeen (validOps consumed) ++
            (if opOf line ∈ validOps consumed then [] else [opOf line]) := by
        rw [hval, hval0, firstSeen_append_one]
      have hmemp : opOf line ∈ st.processed ↔ opOf line ∈ validOps consumed := by
        rw [hp, mem_firstSeen]
      have hone_p : (opProcUpdate st (opOf line)).processed =
          firstSeen (validOps (consumed ++ [line])) := by
        unfold opProcUpdate
        by_cases hin : opOf line ∈ st.processed
        · rw [if_pos hin]
          rw [hp, hfs, if_pos (hmemp.mp hin), List.append_nil]
        · rw [if_neg hin]
          show st.processed ++ [opOf line] = _
          rw [hfs, if_neg (fun hc => hin (hmemp.mpr hc)), hp]
      have hone_s : ((opProcUpdate st (opOf line)).seq ++
          (opProcUpdate st (opOf line)).cur).filter (fun s => decide (s ≠ "")) =
          (opProcUpdate st (opOf line)).processed := by
        unfold opProcUpdate
        by_cases hin : opOf line ∈ st.processed
        · rw [if_pos hin]
          exact hs
        · rw [if_neg hin]
          show (st.seq ++ (st.cur ++ [opOf line])).filter _ = st.processed ++ [opOf line]
          rw [← List.append_assoc, List.filter_append, hs]
          congr 1
          have hne : opOf line ≠ "" := by
            have hm : opOf line ∈ validOps [line] := by
              rw [hval0]
              exact List.mem_singleton.mpr rfl
            exact op_ne_empty hm
          simp [hne]
      have hone_r : (opProcUpdate st (opOf line)).referenced = rchresRefs consumed := by
        rw [opProcUpdate_referenced, hr]
      obtain ⟨hrf1, hrf2, hrf3⟩ := opRefsUpdate_fields (opProcUpdate st (opOf line)) line
      refine ⟨by rw [hrf1, hone_p], by rw [hrf2, hrf3, hone_s, hrf1], ?_⟩
      show (opRefsUpdate (opProcUpdate st (opOf line)) line).referenced = _
      rw [hrefs]
      unfold opRefsUpdate refsStep
      rw [if_neg h1, if_neg h2]
      by_cases hq : ((pySplit line).get? 0).getD "" = "RCHRES" ∧ 8 ≤ (pySplit line).length
      · rw [if_pos hq, if_pos hq]
        by_cases ht : refTargetOf line ∈ (opProcUpdate st (opOf line)).referenced
        · rw [if_pos ht, if_pos (by rw [← hone_r]; exact ht)]
          exact hone_r
        · rw [if_neg ht, if_neg (by rw [← hone_r]; exact ht)]
          show (opProcUpdate st (opOf line)).referenced ++ [refTargetOf line] = _
          rw [hone_r]
      · rw [if_neg hq, if_neg hq]
        exact hone_r

theorem opFold_inv : ∀ (nb consumed : List String) (st : OpState),
    OpInv consumed st → OpInv (consumed ++ nb) (nb.foldl opSeqStep st) := by
  intro nb
  induction nb with
  | nil =>
    intro consumed st h
    simpa using h
  | cons line rest ih =>
    intro consumed st h
    rw [List.foldl_cons]
    have h2 := ih (consumed ++ [line]) _ (opSeqStep_inv line h)
    rwa [List.append_assoc, List.singleton_append] at h2

theorem opInv_init : OpInv [] ⟨[], [], [], []⟩ := ⟨rfl, rfl, rfl⟩

theorem flushGroup_cur (st : OpState) : (flushGroup st).cur = [] := by
  unfold flushGroup
  by_cases h : st.cur ≠ []
  · rw [if_pos h]
  · rw [if_neg h]
    exact not_not.mp h

/-- C5 (amended): the non-blank lines of the Operation Sequence Deriver's
output are exactly the distinct valid operations of the input in global
first-seen order, followed by the dangling referenced reaches — those
destinations named in lines whose FIRST token is `RCHRES` (with at least 8
tokens; PERLND/IMPLND destinations are NOT tracked) that never appeared as
an operation — sorted and deduplicated; hence the output has no duplicate
operation and preserves first-seen order. -/
theorem C5_operation_sequence (nb : List String) :
    (generate_operation_sequence_block nb).filter (fun s => decide (s ≠ "")) =
      firstSeen (validOps nb) ++
        sortBy strLe ((rchresRefs nb).filter (fun t => decide (t ∉ firstSeen (validOps nb)))) ∧
    ((generate_operation_sequence_block nb).filter (fun s => decide (s ≠ ""))).Nodup ∧
    (∀ t, t ∈ rchresRefs nb ↔ ∃ line ∈ nb, RefQualif line t) := by
  have hinv : OpInv nb (nb.foldl opSeqStep ⟨[], [], [], []⟩) := by
    have h := opFold_inv nb [] _ opInv_init
    simpa using h
  obtain ⟨hp, hs, hr⟩ := hinv
  obtain ⟨hf1, hf2, hf3⟩ := flushGroup_fields (nb.foldl opSeqStep ⟨[], [], [], []⟩)
  have hcur := flushGroup_cur (nb.foldl opSeqStep ⟨[], [], [], []⟩)
  set stF := flushGroup (nb.foldl opSeqStep ⟨[], [], [], []⟩) with hstF
  have hFproc : stF.processed = firstSeen (validOps nb) := by rw [hf1, hp]
  have hFref : stF.referenced = rchresRefs nb := by rw [hf2, hr]
  have hFseq : stF.seq.filter (fun s => decide (s ≠ "")) = firstSeen (validOps nb) := by
    have := hf3
    rw [hcur, List.append_nil] at this
    rw [this, hs, hp]
  have hU : stF.referenced.filter (fun t => decide (t ∉ stF.processed)) =
      (rchresRefs nb).filter (fun t => decide (t ∉ firstSeen (validOps nb))) := by
    rw [hFref, hFproc]
  have hUne : ∀ t ∈ (rchresRefs nb).filter (fun t => decide (t ∉ firstSeen (validOps nb))),
      t ≠ "" := by
    intro t ht
    exact refs_ne_empty (List.mem_filter.mp ht).1
  have hkey : (generate_operation_sequence_block nb).filter (fun s => decide (s ≠ "")) =
      firstSeen (validOps nb) ++
        sortBy strLe ((rchresRefs nb).filter (fun t => decide (t ∉ firstSeen (validOps nb)))) := by
    unfold generate_operation_sequence_block
    rw [← hstF, filter_dropTrailingBlanks]
    unfold opFinalSeq
    rw [hU]
    by_cases hne : (rchresRefs nb).filter (fun t => decide (t ∉ firstSeen (validOps nb))) ≠ []
    · rw [if_pos hne, List.filter_append, List.filter_append, hFseq]
      have hsort : (sortBy strLe ((rchresRefs nb).filter
          (fun t => decide (t ∉ firstSeen (validOps nb))))).filter
            (fun s => decide (s ≠ "")) =
          sortBy strLe ((rchresRefs nb).filter (fun t => decide (t ∉ firstSeen (validOps nb)))) := by
        apply List.filter_eq_self.mpr
        intro a ha
        have : a ∈ (rchresRefs nb).filter (fun t => decide (t ∉ firstSeen (validOps nb))) :=
          (sortBy_perm strLe _).mem_iff.mp ha
        simpa using hUne a this
      rw [hsort]
      simp
    · rw [if_neg hne, hFseq]
      rw [not_not.mp hne]
      simp [sortBy]
  refine ⟨hkey, ?_, fun t => mem_rchresRefs⟩
  rw [hkey]
  have hnodupU : ((rchresRefs nb).filter (fun t => decide (t ∉ firstSeen (validOps nb)))).Nodup :=
    (nodup_rchresRefs nb).filter _
  refine List.Nodup.append (nodup_firstSeen _)
    (((sortBy_perm strLe _).nodup_iff).mpr hnodupU) ?_
  intro a ha hb
  have hmem : a ∈ (rchresRefs nb).filter (fun t => decide (t ∉ firstSeen (validOps nb))) :=
    (sortBy_perm strLe _).mem_iff.mp hb
  have := (List.mem_filter.mp hmem).2
  simp at this
  exact this ha

/-- C5 counterexample: a PERLND line's destination reach is not tracked —
on a single-PERLND network block whose destination `RCHRES 9` never
appears as an operation, the output is just `["PERLND 1"]` with no
dangling-reference group, contradicting the claim that destinations of
PERLND/IMPLND lines are included. -/
theorem C5_counterexample :
    generate_operation_sequence_block
        ["PERLND 1   PWATER PERO      0.5000000      RCHRES 9       INFLOW"] = ["PERLND 1"] ∧
    "RCHRES 9" ∉ generate_operation_sequence_block
        ["PERLND 1   PWATER PERO      0.5000000      RCHRES 9       INFLOW"] := by
  refine ⟨by decide, by decide⟩

theorem groupsFind_mem {gs : Groups} {k : String} {v : List String}
    (h : groupsFind gs k = some v) : (k, v) ∈ gs := by
  induction gs with
  | nil => simp [groupsFind] at h
  | cons p rest ih =>
    obtain ⟨pk, pv⟩ := p
    by_cases hp : pk = k
    · subst hp
      simp [groupsFind] at h
      subst h
      exact List.mem_cons_self _ _
    · simp [groupsFind, hp] at h
      exact List.mem_cons_of_mem _ (ih h)

theorem string_append_ne_empty (a b : String) (h : a.data ≠ []) : a ++ b ≠ "" := by
  intro hc
  have hd := congrArg String.data hc
  rw [String.data_append] at hd
  simp at hd
  exact h hd.1

theorem perlndLine_ne_empty (l t : String) (a : ℚ) : perlndLine l t a ≠ "" := by
  unfold perlndLine
  rw [String.append_assoc, String.append_assoc, String.append_assoc,
    String.append_assoc, String.append_assoc]
  exact string_append_ne_empty _ _ (by decide)

theorem implndLine_ne_empty (l t : String) (a : ℚ) : implndLine l t a ≠ "" := by
  unfold implndLine
  rw [String.append_assoc, String.append_assoc, String.append_assoc,
    String.append_assoc, String.append_assoc]
  exact string_append_ne_empty _ _ (by decide)

theorem rchresLine_ne_empty (l t : String) : rchresLine l t ≠ "" := by
  unfold rchresLine
  rw [String.append_assoc, String.append_assoc, String.append_assoc]
  exact string_append_ne_empty _ _ (by decide)

/-- All statement lines stored in the groups are non-blank. -/
def GroupsNB (gs : Groups) : Prop := ∀ p ∈ gs, ∀ l ∈ p.2, l ≠ ""

theorem groupsNB_ensure {gs : Groups} (h : GroupsNB gs) (k : String) :
    GroupsNB (ensureGroup gs k) := by
  unfold ensureGroup
  split
  · exact h
  · intro p hp
    rcases List.mem_append.mp hp with hp | hp
    · exact h p hp
    · simp at hp
      subst hp
      intro l hl
      simp at hl

theorem groupsNB_append {gs : Groups} (h : GroupsNB gs) {line : String}
    (hline : line ≠ "") (k : String) : GroupsNB (appendGroup gs k line) := by
  unfold appendGroup
  split
  · intro p hp
    obtain ⟨q, hq, hqe⟩ := List.mem_map.mp hp
    by_cases hqk : q.1 = k
    · rw [if_pos hqk] at hqe
      subst hqe
      intro l hl
      rcases List.mem_append.mp hl with hl | hl
      · exact h q hq l hl
      · simp at hl
        subst hl
        exact hline
    · rw [if_neg hqk] at hqe
      subst hqe
      exact h q hq
  · intro p hp
    rcases List.mem_append.mp hp with hp | hp
    · exact h p hp
    · simp at hp
      subst hp
      intro l hl
      simp at hl
      subst hl
      exact hline

theorem groupsNB_step1 (g : HGraph) (m : AreaMap) :
    ∀ (p : String × Shape) (st : Groups), GroupsNB st → GroupsNB (step1Body g m st p) := by
  intro p st h
  unfold step1Body
  dsimp only
  split
  · cases houts : p.2.outgoing with
    | nil => simpa [houts] using h
    | cons e tail =>
      simp only [houts]
      cases htgt : lookupShape g e.target with
      | none => simpa using h
      | some tgt =>
        simp only []
        have h1 := groupsNB_ensure h tgt.label
        cases hpa : amFind m (perlndKey p.2.label) with
        | none =>
          cases hia : amFind m (implndKey p.2.label) with
          | none => simpa [hpa, hia] using h1
          | some b =>
            simp only [hpa, hia]
            exact groupsNB_append h1 (implndLine_ne_empty p.2.label tgt.label b) _
        | some a =>
          have h2 := groupsNB_append h1 (perlndLine_ne_empty p.2.label tgt.label a) tgt.label
          cases hia : amFind m (implndKey p.2.label) with
          | none => simpa [hpa, hia] using h2
          | some b =>
            simp only [hpa, hia]
            exact groupsNB_append h2 (implndLine_ne_empty p.2.label tgt.label b) _
  · exact h

theorem groupsNB_step2 (g : HGraph) :
    ∀ (p : String × Shape) (st : Groups), GroupsNB st → GroupsNB (step2Body g st p) := by
  intro p st h
  unfold step2Body
  split
  · have : ∀ (outs : List FlowOut) (st : Groups), GroupsNB st →
        GroupsNB (outs.foldl
          (fun st conn =>
            match lookupShape g conn.target with
            | none => st
            | some tgt => appendGroup (ensureGroup st p.2.label) p.2.label
                (rchresLine p.2.label tgt.label)) st) := by
      intro outs
      induction outs with
      | nil => exact fun st h => h
      | cons e rest ih =>
        intro st h
        rw [List.foldl_cons]
        apply ih
        cases he : lookupShape g e.target with
        | none => simpa [he] using h
        | some tgt =>
          simp only [he]
          exact groupsNB_append (groupsNB_ensure h _) (rchresLine_ne_empty _ _) _
    exact this p.2.outgoing st h
  · exact h

theorem groupsNB_rchresGroups (g : HGraph) (m : AreaMap) : GroupsNB (rchresGroups g m) := by
  unfold rchresGroups
  have h1 : ∀ (l : HGraph) (st : Groups), GroupsNB st →
      GroupsNB (l.foldl (step1Body g m) st) := by
    intro l
    induction l with
    | nil => exact fun st h => h
    | cons p rest ih =>
      intro st h
      rw [List.foldl_cons]
      exact ih _ (groupsNB_step1 g m p st h)
  have h2 : ∀ (l : HGraph) (st : Groups), GroupsNB st →
      GroupsNB (l.foldl (step2Body g) st) := by
    intro l
    induction l with
    | nil => exact fun st h => h
    | cons p rest ih =>
      intro st h
      rw [List.foldl_cons]
      exact ih _ (groupsNB_step2 g p st h)
  exact h2 _ _ (h1 _ _ (fun p hp => by simp at hp))

/-- Step-3 state growth: the processed set and the emitted lines only grow. -/
def RchMono (st st' : List String × List String) : Prop :=
  (∀ k ∈ st.1, k ∈ st'.1) ∧ (∀ l ∈ st.2, l ∈ st'.2)

theorem rchMono_refl (st : List String × List String) : RchMono st st :=
  ⟨fun _ h => h, fun _ h => h⟩

theorem rchMono_trans {a b c : List String × List String}
    (h1 : RchMono a b) (h2 : RchMono b c) : RchMono a c :=
  ⟨fun k hk => h2.1 k (h1.1 k hk), fun l hl => h2.2 l (h1.2 l hl)⟩

/-- Every processed label with a non-empty group has contributed a
non-blank line to the output. -/
def RchInv (groups : Groups) (st : List String × List String) : Prop :=
  ∀ k ∈ st.1, (groupsFind groups k).getD [] ≠ [] → ∃ l ∈ st.2, l ≠ ""

theorem processRch_props (groups : Groups) (hNB : GroupsNB groups) :
    ∀ fuel : Nat,
      (∀ label st st', processRch groups fuel label st = some st' →
        RchMono st st' ∧ (RchInv groups st → RchInv groups st') ∧ label ∈ st'.1) ∧
      (∀ lines st st', rchLoop groups (processRch groups fuel) lines st = some st' →
        RchMono st st' ∧ (RchInv groups st → RchInv groups st')) := by
  intro fuel
  induction fuel with
  | zero =>
    constructor
    · intro label st st' h
      simp [processRch] at h
    · intro lines
      induction lines with
      | nil =>
        intro st st' h
        unfold rchLoop at h
        injection h with h
        subst h
        exact ⟨rchMono_refl st, id⟩
      | cons line rest ih =>
        intro st st' h
        unfold rchLoop at h
        dsimp only at h
        split at h
        · split at h
          · split at h
            · simp at h
            · rename_i st1 hp
              simp [processRch] at hp
          · exact ih _ _ h
        · exact ih _ _ h
  | succ n ihn =>
    obtain ⟨ihP, ihL⟩ := ihn
    have hP : ∀ label st st', processRch groups (n + 1) label st = some st' →
        RchMono st st' ∧ (RchInv groups st → RchInv groups st') ∧ label ∈ st'.1 := by
      intro label st st' h
      unfold processRch at h
      split at h
      · rename_i hmem
        injection h with h
        subst h
        exact ⟨rchMono_refl st, id, hmem⟩
      · rename_i hmem
        dsimp only at h
        obtain ⟨hm, hi⟩ := ihL _ _ _ h
        have hm0 : RchMono st (label :: st.1,
            if (groupsFind groups label).getD [] ≠ [] then
              st.2 ++ (groupsFind groups label).getD [] ++ [""] else st.2) := by
          constructor
          · intro k hk
            exact List.mem_cons_of_mem _ hk
          · intro l hl
            by_cases hg : (groupsFind groups label).getD [] ≠ []
            · simp only [if_pos hg]
              exact List.mem_append.mpr (Or.inl (List.mem_append.mpr (Or.inl hl)))
            · simp only [if_neg hg]
              exact hl
        have hi0 : RchInv groups st → RchInv groups (label :: st.1,
            if (groupsFind groups label).getD [] ≠ [] then
              st.2 ++ (groupsFind groups label).getD [] ++ [""] else st.2) := by
          intro hI k hk hgk
          rcases List.mem_cons.mp hk with rfl | hk
          · cases hf : groupsFind groups k with
            | none =>
              rw [hf] at hgk
              simp at hgk
            | some v =>
              have hv : v ≠ [] := by
                rw [hf] at hgk
                simpa using hgk
              obtain ⟨l0, hl0⟩ := List.exists_mem_of_ne_nil v hv
              refine ⟨l0, ?_, hNB _ (groupsFind_mem hf) l0 hl0⟩
              dsimp only
              simp only [Option.getD_some]
              rw [if_pos hv]
              exact List.mem_append.mpr (Or.inl (List.mem_append.mpr (Or.inr hl0)))
          · obtain ⟨l, hl, hlne⟩ := hI k hk hgk
            exact ⟨l, hm0.2 l hl, hlne⟩
        exact ⟨rchMono_trans hm0 hm, fun hI => hi (hi0 hI),
          hm.1 label (List.mem_cons_self _ _)⟩
    have hL : ∀ lines st st', rchLoop groups (processRch groups (n + 1)) lines st = some st' →
        RchMono st st' ∧ (RchInv groups st → RchInv groups st') := by
      intro lines
      induction lines with
      | nil =>
        intro st st' h
        unfold rchLoop at h
        injection h with h
        subst h
        exact ⟨rchMono_refl st, id⟩
      | cons line rest ih =>
        intro st st' h
        unfold rchLoop at h
        dsimp only at h
        split at h
        · split at h
          · split at h
            · simp at h
            · rename_i st1 hp
              obtain ⟨hm1, hi1, _⟩ := hP _ _ _ hp
              obtain ⟨hm2, hi2⟩ := ih _ _ h
              exact ⟨rchMono_trans hm1 hm2, fun hI => hi2 (hi1 hI)⟩
          · exact ih _ _ h
        · exact ih _ _ h
    exact ⟨hP, hL⟩

theorem rchDriver_props (groups : Groups) (hNB : GroupsNB groups) (fuel : Nat) :
    ∀ (keys : List String) (st st' : List String × List String),
      rchDriver groups fuel keys st = some st' →
      RchMono st st' ∧ (RchInv groups st → RchInv groups st') ∧ ∀ k ∈ keys, k ∈ st'.1 := by
  intro keys
  induction keys with
  | nil =>
    intro st st' h
    unfold rchDriver at h
    injection h with h
    subst h
    exact ⟨rchMono_refl st, id, by simp⟩
  | cons k rest ih =>
    intro st st' h
    unfold rchDriver at h
    split at h
    · simp at h
    · rename_i st1 hp
      obtain ⟨hm1, hi1, hk1⟩ := (processRch_props groups hNB fuel).1 k st st1 hp
      obtain ⟨hm2, hi2, hk2⟩ := ih st1 st' h
      refine ⟨rchMono_trans hm1 hm2, fun hI => hi2 (hi1 hI), ?_⟩
      intro k' hk'
      rcases List.mem_cons.mp hk' with rfl | hk'
      · exact hm2.1 _ hk1
      · exact hk2 _ hk'

theorem processRch_lines_empty (groups : Groups)
    (hE : ∀ k, (groupsFind groups k).getD [] = []) :
    ∀ (fuel : Nat) (label : String) (st st' : List String × List String),
      processRch groups fuel label st = some st' → st'.2 = st.2 := by
  intro fuel label st st' h
  cases fuel with
  | zero => simp [processRch] at h
  | succ n =>
    unfold processRch at h
    split at h
    · injection h with h
      subst h
      rfl
    · dsimp only at h
      rw [hE label] at h
      simp only [ne_eq, not_true_eq_false, if_false] at h
      unfold rchLoop at h
      injection h with h
      rw [← h]

theorem rchDriver_lines_empty (groups : Groups)
    (hE : ∀ k, (groupsFind groups k).getD [] = []) (fuel : Nat) :
    ∀ (keys : List String) (st st' : List String × List String),
      rchDriver groups fuel keys st = some st' → st'.2 = st.2 := by
  intro keys
  induction keys with
  | nil =>
    intro st st' h
    unfold rchDriver at h
    injection h with h
    subst h
    rfl
  | cons k rest ih =>
    intro st st' h
    unfold rchDriver at h
    split at h
    · simp at h
    · rename_i st1 hp
      rw [ih st1 st' h, processRch_lines_empty groups hE fuel k st st1 hp]

theorem trimTrailingBlank_ne_empty {lines : List String} {l : String}
    (hl : l ∈ lines) (hne : l ≠ "") : trimTrailingBlank lines ≠ [] := by
  unfold trimTrailingBlank
  split
  · rename_i hcond
    intro hc
    cases lines with
    | nil => exact hcond.1 rfl
    | cons x rest =>
      cases rest with
      | nil =>
        have hx : x = "" := by
          have := hcond.2
          simp at this
          exact this
        rcases List.mem_cons.mp hl with rfl | hl2
        · exact hne hx
        · simp at hl2
      | cons y rest2 =>
        simp [List.dropLast] at hc
  · rename_i hcond
    intro hc
    rw [hc] at hl
    simp at hl

/-- C8: whenever step 3 completes, the composer returns the distinguished
`None` exactly when every group of `rchres_groups` is empty — i.e. when no
statement line was produced by steps 1 and 2 — and any non-`None` return
carries a non-empty line list, so success with content is always
distinguishable from the empty-result condition. -/
theorem C8_empty_result (g : HGraph) (m : AreaMap) (fuel : Nat)
    (r : Option (List String))
    (h : generate_corrected_network_block g m fuel = some r) :
    (r = none ↔ ∀ k, (groupsFind (rchresGroups g m) k).getD [] = []) ∧
    (∀ ls, r = some ls → ls ≠ []) := by
  unfold generate_corrected_network_block at h
  dsimp only at h
  split at h
  · simp at h
  · rename_i stD hdrv
    injection h with h
    subst h
    constructor
    · constructor
      · intro hnone k
        by_contra hk
        have hkeys : k ∈ (rchresGroups g m).map Prod.fst := by
          cases hf : groupsFind (rchresGroups g m) k with
          | none =>
            rw [hf] at hk
            simp at hk
          | some v => exact List.mem_map.mpr ⟨(k, v), groupsFind_mem hf, rfl⟩
        obtain ⟨_, hinv, hall⟩ :=
          rchDriver_props (rchresGroups g m) (groupsNB_rchresGroups g m) fuel _ _ _ hdrv
        have hI : RchInv (rchresGroups g m) stD := by
          apply hinv
          intro k' hk' _
          simp at hk'
        obtain ⟨l, hlmem, hlne⟩ := hI k (hall k hkeys) hk
        have hne := trimTrailingBlank_ne_empty hlmem hlne
        by_cases ht : trimTrailingBlank stD.2 = []
        · exact hne ht
        · rw [if_neg ht] at hnone
          cases hnone
      · intro hE
        have h2 : stD.2 = ([] : List String) := by
          have := rchDriver_lines_empty (rchresGroups g m) hE fuel _ _ _ hdrv
          simpa using this
        rw [h2]
        simp [trimTrailingBlank]
    · intro ls hls
      by_cases ht : trimTrailingBlank stD.2 = []
      · rw [if_pos ht] at hls
        cases hls
      · rw [if_neg ht] at hls
        injection hls with hls
        subst hls
        exact ht

/-- Witness for C8 at the scenario graph and mapping. -/
theorem C8_empty_result_witness :
    ((some ["PERLND 1   PWATER PERO      0.5000000      RCHRES 5       INFLOW",
            "IMPLND 1   IWATER SURO      0.2500000      RCHRES 5       INFLOW"] :
        Option (List String)) = none ↔
      ∀ k, (groupsFind (rchresGroups gScen mScen) k).getD [] = []) ∧
    (∀ ls, (some ["PERLND 1   PWATER PERO      0.5000000      RCHRES 5       INFLOW",
            "IMPLND 1   IWATER SURO      0.2500000      RCHRES 5       INFLOW"] :
        Option (List String)) = some ls → ls ≠ []) :=
  C8_empty_result gScen mScen 10
    (some ["PERLND 1   PWATER PERO      0.5000000      RCHRES 5       INFLOW",
           "IMPLND 1   IWATER SURO      0.2500000      RCHRES 5       INFLOW"])
    (by decide)
